import Mathlib

/-!
Verification of the Bay-Area company data scraper's extraction and
normalization pipeline.

The Python sources are shallowly embedded: each normalizer or extractor
becomes a total Lean function over `List Char` / `String`.  Python regular
expressions are embedded as the direct scanning functions they denote on
the concrete pattern at hand (each pattern here is simple enough that the
backtracking engine's behaviour coincides with a single greedy or lazy
scan; this is noted per definition).  Python `float` arithmetic on the
decimal amounts appearing in these claims is exact, so amounts are
modelled as rationals.  A Python function that can raise an uncaught
exception is embedded in `Except Unit`; all other functions are total.
`\d`, `\w` and case folding are modelled on the ASCII range, which covers
every character class these sources apply them to.
-/

/-- Whitespace as recognized by Python's `str.strip()` and `\s`
(ASCII whitespace plus the no-break space, the only non-ASCII whitespace
occurring in these sources). -/
def isPySpace (c : Char) : Bool :=
  c = ' ' || c = '\t' || c = '\n' || c = '\r' || c = '\x0b' || c = '\x0c' || c = ' '

/-- Left part of Python `str.strip()`. -/
def pyLStrip (l : List Char) : List Char := l.dropWhile isPySpace

/-- Right part of Python `str.strip()`. -/
def pyRStrip (l : List Char) : List Char := (l.reverse.dropWhile isPySpace).reverse

/-- Python `str.strip()` with no arguments. -/
def pyStrip (l : List Char) : List Char := pyRStrip (pyLStrip l)

/-- Python `str.strip(chars)`: remove the given characters from both ends. -/
def pyStripSet (cs : List Char) (l : List Char) : List Char :=
  ((l.dropWhile (fun c => cs.any (· = c))).reverse.dropWhile (fun c => cs.any (· = c))).reverse

/-- Numeric value of a list of ASCII digits (most significant first). -/
def digitsVal (l : List Char) : Nat := l.foldl (fun a c => 10 * a + (c.toNat - 48)) 0

/-- Does `l` start with `pat`?  (Own definition of list-prefix testing.) -/
def startsL : List Char → List Char → Bool
  | [], _ => true
  | _ :: _, [] => false
  | p :: ps, c :: cs => p = c && startsL ps cs

/-- Python's substring containment `pat in l`. -/
def containsL (pat : List Char) : List Char → Bool
  | [] => startsL pat []
  | c :: rest => startsL pat (c :: rest) || containsL pat rest

/-- Case-insensitive prefix test: does `l` start with (lower-case) `pat`? -/
def startsCI (pat l : List Char) : Bool := startsL pat (l.map Char.toLower)

/-! ### sf_bay_area_startups_cleaner.py -/

/-- `re.match(r'(\d+)-(\d+)', s)`: greedy digit run, a hyphen, a digit run,
anchored at the start.  The engine never backtracks here because shortening
`\d+` leaves a digit, never `-`. -/
def matchRange (l : List Char) : Option (Nat × Nat) :=
  let d1 := l.takeWhile Char.isDigit
  if d1.isEmpty then none else
  let r1 := l.drop d1.length
  if r1.head? = some '-' then
    let d2 := r1.tail.takeWhile Char.isDigit
    if d2.isEmpty then none else some (digitsVal d1, digitsVal d2)
  else none

/-- `re.match(r'(\d+)\+ employees', s)`: digit run then the literal
`"+ employees"`, anchored at the start. -/
def matchPlus (l : List Char) : Option Nat :=
  let d1 := l.takeWhile Char.isDigit
  if d1.isEmpty then none else
  if startsL "+ employees".data (l.drop d1.length) then some (digitsVal d1) else none

/-- `parse_company_size` from sf_bay_area_startups_cleaner.py:
midpoint of a `low-high` range by floor division, the base of `N+ employees`,
otherwise `None`. -/
def parse_company_size (s : String) : Option Nat :=
  match matchRange s.data with
  | some (lo, hi) => some ((lo + hi) / 2)
  | none => matchPlus s.data

/-- Integer-literal body accepted by Python `int()`: digits with single
underscores between digits. -/
def okIntTail : List Char → Bool
  | [] => true
  | '_' :: [] => false
  | '_' :: c :: rest => c.isDigit && okIntTail rest
  | c :: rest => c.isDigit && okIntTail rest

/-- Nonempty digit body (with underscores) for `int()`. -/
def okIntBody : List Char → Bool
  | [] => false
  | c :: rest => c.isDigit && okIntTail rest

/-- Python `int(str)`: optional sign, digits with underscores between
digits, surrounding whitespace ignored; `none` models the `ValueError`. -/
def pythonInt (l : List Char) : Option Int :=
  let t := pyStrip l
  match t with
  | '+' :: r => if okIntBody r then some (digitsVal (r.filter (· ≠ '_'))) else none
  | '-' :: r => if okIntBody r then some (-(digitsVal (r.filter (· ≠ '_')) : Int)) else none
  | r => if okIntBody r then some (digitsVal (r.filter (· ≠ '_'))) else none

/-- `parse_founded_year` from sf_bay_area_startups_cleaner.py.  The source
calls `int(year_str.strip())` with no exception guard, so a non-blank
string that is not an integer literal raises `ValueError`, modelled as
`Except.error ()`. -/
def parse_founded_year (s : String) : Except Unit (Option Int) :=
  if pyStrip s.data ≠ [] then
    match pythonInt s.data with
    | some n => .ok (some n)
    | none => .error ()
  else .ok none

/-- A character matched by `[\d\.]`. -/
def isDigitDot (c : Char) : Bool := c.isDigit || c = '.'

/-- `re.search(r'\$([\d\.]+)([MB])', s)`: first `$` followed by a nonempty
run of digits/periods followed by `M` or `B`.  Shortening the greedy run
leaves a digit or period, never `M`/`B`, so no backtracking occurs. -/
def currencySearch : List Char → Option (List Char × Char)
  | [] => none
  | c :: rest =>
    if c = '$' then
      let run := rest.takeWhile isDigitDot
      if run.isEmpty then currencySearch rest
      else
        match (rest.drop run.length).head? with
        | some u => if u = 'M' || u = 'B' then some (run, u) else currencySearch rest
        | none => currencySearch rest
    else currencySearch rest

/-- Python `float()` restricted to strings over digits and periods (the
only strings these sources pass to it): defined iff there is at least one
digit and at most one period. -/
def pyFloatDD (l : List Char) : Option ℚ :=
  if l.any Char.isDigit && l.all isDigitDot && l.countP (· = '.') ≤ 1 then
    let ip := l.takeWhile (· ≠ '.')
    let fp := (l.dropWhile (· ≠ '.')).drop 1
    some ((digitsVal ip : ℚ) + (digitsVal fp : ℚ) / (10 ^ fp.length))
  else none

/-- `parse_currency_field` from sf_bay_area_startups_cleaner.py.  The
`float(match.group(1))` call has no exception guard, so a matched amount
such as `".."` raises `ValueError`, modelled as `Except.error ()`. -/
def parse_currency_field (s : String) : Except Unit (Option ℚ × Option String) :=
  if s.data = [] || pyStrip s.data = [] then .ok (none, none)
  else
    match currencySearch s.data with
    | some (run, u) =>
      match pyFloatDD run with
      | none => .error ()
      | some amt =>
        if u = 'B' then .ok (some (amt * 1000), some "B")
        else .ok (some amt, some "M")
    | none => .ok (none, none)

/-! ### sf_bay_area_companies_cleaner.py -/

/-- Python `\w` on the ASCII range. -/
def isWordChar (c : Char) : Bool := c.isAlphanum || c = '_'

/-- `re.sub(r'\bU\.S\.\b', 'US', s)`.  The pattern is the four literal
characters `U.S.` with word boundaries; the boundary before `U` holds when
the previous character is absent or a non-word character, and the boundary
after the final period (a non-word character) holds only when the *next*
character is a word character.  `prev` carries the previously scanned
character; after a replacement, scanning resumes after the match. -/
def usSub : Option Char → List Char → List Char
  | prev, 'U' :: '.' :: 'S' :: '.' :: c :: rest =>
    if (match prev with | none => true | some p => !isWordChar p) && isWordChar c then
      'U' :: 'S' :: usSub (some '.') (c :: rest)
    else
      'U' :: usSub (some 'U') ('.' :: 'S' :: '.' :: c :: rest)
  | _, c :: rest => c :: usSub (some c) rest
  | _, [] => []

/-- `normalize_location` from sf_bay_area_companies_cleaner.py. -/
def normalize_location (s : String) : String :=
  if s.data = [] then s else ⟨pyStrip (usSub none s.data)⟩

/-- `re.sub(r'\[.*?\]', '', s)`: remove every bracketed segment whose
closing `]` appears before any newline (`.` does not match a newline). -/
def bracketSub : List Char → List Char
  | [] => []
  | c :: rest =>
    if c = '[' then
      let seg := rest.takeWhile (· ≠ ']')
      if seg.all (· ≠ '\n') && rest.drop seg.length ≠ [] then
        bracketSub (rest.drop (seg.length + 1))
      else '[' :: bracketSub rest
    else c :: bracketSub rest
termination_by l => l.length
decreasing_by
  all_goals simp only [List.length_drop, List.length_cons]
  all_goals omega

/-- `clean_headquarters` from sf_bay_area_companies_cleaner.py. -/
def clean_headquarters (s : String) : String :=
  if s.data = [] then s else
  let cleaned := bracketSub s.data
  let n := normalize_location ⟨cleaned⟩
  ⟨pyStrip n.data⟩

/-- Length of a match of `\d+\s+years\s+ago` (case-insensitive) at the
head of `l`, if any.  Greedy `\d+`/`\s+` need no backtracking: a shortened
digit run is followed by a digit (not whitespace) and a shortened
whitespace run is followed by whitespace (not `y`/`a`). -/
def tryYearsAgo (l : List Char) : Option Nat :=
  let d := l.takeWhile Char.isDigit
  if d.isEmpty then none else
  let r1 := l.drop d.length
  let w1 := r1.takeWhile isPySpace
  if w1.isEmpty then none else
  let r2 := r1.drop w1.length
  if startsCI "years".data r2 then
    let r3 := r2.drop 5
    let w2 := r3.takeWhile isPySpace
    if w2.isEmpty then none else
    let r4 := r3.drop w2.length
    if startsCI "ago".data r4 then some (d.length + w1.length + 5 + w2.length + 3)
    else none
  else none

/-- Length of a match of `\d+\s+years\s+ago\s*\(.*?\)` (case-insensitive)
at the head of `l`, if any. -/
def tryYearsAgoParen (l : List Char) : Option Nat :=
  match tryYearsAgo l with
  | none => none
  | some n =>
    let r := l.drop n
    let w := r.takeWhile isPySpace
    let r2 := r.drop w.length
    match r2.head? with
    | some '(' =>
      let rest := r2.drop 1
      let seg := rest.takeWhile (· ≠ ')')
      if seg.all (· ≠ '\n') && rest.drop seg.length ≠ [] then
        some (n + w.length + 1 + seg.length + 1)
      else none
    | _ => none

/-- `re.sub(pat, '', s)` for a matcher that reports the length of a match
at a position: scan left to right, delete each leftmost non-overlapping
match.  Every matcher passed to it only ever reports positive lengths;
`max n 1` merely witnesses that for termination. -/
def subAll (m : List Char → Option Nat) : List Char → List Char
  | [] => []
  | c :: rest =>
    match m (c :: rest) with
    | some n => subAll m ((c :: rest).drop (max n 1))
    | none => c :: subAll m rest
termination_by l => l.length
decreasing_by
  all_goals simp only [List.length_drop, List.length_cons]
  all_goals first
  | (have h1 : 1 ≤ max n 1 := Nat.le_max_right n 1; omega)
  | omega

/-- `clean_founded` from sf_bay_area_companies_cleaner.py: delete
`N years ago (...)` segments, then bare `N years ago` segments, then
strip `';'`/`' '` and whitespace from the ends. -/
def clean_founded (s : String) : String :=
  if s.data = [] then s else
  let c1 := subAll tryYearsAgoParen s.data
  let c2 := subAll tryYearsAgo c1
  ⟨pyStrip (pyStripSet [';', ' '] c2)⟩

/-- `re.findall(r'(\d{4})', s)`: non-overlapping scan for runs of exactly
four digits. -/
def findall4 : List Char → List (List Char)
  | a :: b :: c :: d :: rest =>
    if a.isDigit && b.isDigit && c.isDigit && d.isDigit then
      [a, b, c, d] :: findall4 rest
    else findall4 (b :: c :: d :: rest)
  | _ => []

/-- `parse_year_field` from sf_bay_area_companies_cleaner.py: minimum of
the 4-digit tokens, `none` when there are none. -/
def parse_year_field (s : String) : Option Nat :=
  if s.data = [] then none else
  match (findall4 s.data).map digitsVal with
  | [] => none
  | y :: ys => some (ys.foldl min y)

/-- `re.findall(r'(\d[\d,\.]*)', s)` restricted to its first element:
first digit, then the greedy run of digits, commas and periods. -/
def empSearch : List Char → Option (List Char)
  | [] => none
  | c :: rest =>
    if c.isDigit then some (c :: rest.takeWhile (fun x => x.isDigit || x = ',' || x = '.'))
    else empSearch rest

/-- Drop trailing periods: Python `str.rstrip('.')`. -/
def rstripDots (l : List Char) : List Char := (l.reverse.dropWhile (· = '.')).reverse

/-- `parse_employees` from sf_bay_area_companies_cleaner.py: first embedded
number, commas removed, trailing period removed; a decimal is truncated by
`int(float(...))`, and any failure is swallowed by the bare `except`. -/
def parse_employees (s : String) : Option Int :=
  if s.data = [] then none else
  match empSearch s.data with
  | none => none
  | some run =>
    let num := rstripDots (pyStrip ((run.filter (· ≠ ',')).filter (· ≠ '~')))
    if !num.isEmpty && num.all Char.isDigit then some (digitsVal num)
    else
      match pyFloatDD num with
      | some q => some ⌊q⌋
      | none => none

/-- The amount/unit match of
`re.search(r'US?\$([\d\.,]+)\s*(billion|million|m|b)?', s, re.IGNORECASE)`
at a position just after the `$`: the greedy amount run, optional
whitespace, then the first alternative that matches (the unit is recorded
already lower-cased, as `unit_str.lower()` sees it). -/
def revAfterDollar (l : List Char) : Option (List Char × Option (List Char)) :=
  let run := l.takeWhile (fun c => c.isDigit || c = '.' || c = ',')
  if run.isEmpty then none else
  let r := l.drop run.length
  let r2 := r.drop (r.takeWhile isPySpace).length
  let unit :=
    if startsCI "billion".data r2 then some "billion".data
    else if startsCI "million".data r2 then some "million".data
    else if startsCI "m".data r2 then some ['m']
    else if startsCI "b".data r2 then some ['b']
    else none
  some (run, unit)

/-- The position scan of the `parse_revenue` search: the pattern can only
match at `U`/`u`, consuming an optional `S`/`s` (preferred, as `S?` is
greedy) and then a literal `$`. -/
def revSearch : List Char → Option (List Char × Option (List Char))
  | [] => none
  | c :: rest =>
    if c = 'U' || c = 'u' then
      match
        (match rest with
         | s :: '$' :: r2 => if s = 'S' || s = 's' then revAfterDollar r2 else none
         | _ => none) with
      | some m => some m
      | none =>
        match rest with
        | '$' :: r1 =>
          match revAfterDollar r1 with
          | some m => some m
          | none => revSearch rest
        | _ => revSearch rest
    else revSearch rest

/-- `parse_revenue` from sf_bay_area_companies_cleaner.py: `US$`-prefixed
amount, commas stripped, billion scaled to millions, unit defaulting to
`M`; the `float` call is guarded by `try`/`except`, so failures yield
`(None, None)`. -/
def parse_revenue (s : String) : Option ℚ × Option String :=
  if s.data = [] || pyStrip s.data = [] then (none, none) else
  let val := pyStrip (s.data.map (fun c => if c = ' ' then ' ' else c))
  match revSearch val with
  | none => (none, none)
  | some (run, u) =>
    match pyFloatDD (run.filter (· ≠ ',')) with
    | none => (none, none)
    | some amt =>
      match u with
      | some unit =>
        if unit = "billion".data || unit = ['b'] then (some (amt * 1000), some "B")
        else (some amt, some "M")
      | none => (some amt, some "M")


/-! ### Python dictionaries and record values -/

/-- The value types stored in the scrapers' record dictionaries. -/
inductive PyVal where
  | vStr : String → PyVal
  | vNat : Nat → PyVal
  | vList : List String → PyVal
  | vNone : PyVal
deriving DecidableEq

/-- Python `d[k] = v` on a dictionary kept as an association list:
overwrite the (unique) existing entry in place if the key exists, else
append at the end. -/
def dictSet : List (String × PyVal) → String → PyVal → List (String × PyVal)
  | [], k, v => [(k, v)]
  | p :: tl, k, v => if p.1 = k then (k, v) :: tl else p :: dictSet tl k v

/-- Python `old.update(new)`: assign every pair of `new` in order. -/
def pyUpdate (old new : List (String × PyVal)) : List (String × PyVal) :=
  new.foldl (fun d p => dictSet d p.1 p.2) old

/-- Python `str.split(sep)` (nonempty separator), auxiliary scan. -/
def splitGo (p : Char) (ps : List Char) : List Char → List Char → List (List Char)
  | [], acc => [acc.reverse]
  | c :: rest, acc =>
    if startsL (p :: ps) (c :: rest) then
      acc.reverse :: splitGo p ps ((c :: rest).drop (ps.length + 1)) []
    else splitGo p ps rest (c :: acc)
termination_by l _ => l.length
decreasing_by
  all_goals simp only [List.length_drop, List.length_cons]
  all_goals omega

/-- Python `str.split(sep)` for a nonempty separator. -/
def pySplitOn (sep l : List Char) : List (List Char) :=
  match sep with
  | [] => [l]
  | p :: ps => splitGo p ps l []

/-- Python `str.replace(pat, '')` for a nonempty pattern, auxiliary scan. -/
def eraseAllSub (p : Char) (ps : List Char) : List Char → List Char
  | [] => []
  | c :: rest =>
    if startsL (p :: ps) (c :: rest) then eraseAllSub p ps ((c :: rest).drop (ps.length + 1))
    else c :: eraseAllSub p ps rest
termination_by l => l.length
decreasing_by
  all_goals simp only [List.length_drop, List.length_cons]
  all_goals omega

/-- Python `str.replace(pat, '')` for a nonempty pattern. -/
def pyReplaceEmpty (pat l : List Char) : List Char :=
  match pat with
  | [] => l
  | p :: ps => eraseAllSub p ps l

/-! ### scraper.py -/

/-- The data a startup card exposes to the locators of
`extract_startup_info`: the first `h3` text; presence of the
`'What they do: '` bold tag with its following text sibling; the
`badge rounded-pill bg-success` spans as (text, id attribute); presence of
the `'Quick facts: '` bold tag with its following text sibling; the texts
of the `company-size-tags` spans, of the `funding-tags` spans; and the
`startup-website-link` anchor with its optional `href`. -/
structure StartupCard where
  h3 : Option String
  whatTheyDo : Option (Option String)
  industrySpans : List (String × Option String)
  quickFacts : Option (Option String)
  sizeTags : List String
  fundingTags : List String
  websiteLink : Option (Option String)

/-- One step of the funding-tag loop of `extract_startup_info`:
`'Series' in text or 'seed' in text.lower()` selects latest funding,
`'valuation' in text.lower()` selects valuation, anything else is an
investor. -/
def fundingStep (acc : List String × Option String × Option String) (raw : String) :
    List String × Option String × Option String :=
  let txt : String := ⟨pyStrip raw.data⟩
  if containsL "Series".data txt.data || containsL "seed".data (txt.data.map Char.toLower) then
    (acc.1, some txt, acc.2.2)
  else if containsL "valuation".data (txt.data.map Char.toLower) then
    (acc.1, acc.2.1, some txt)
  else (acc.1 ++ [txt], acc.2.1, acc.2.2)

/-- `extract_startup_info` from scraper.py.  Each field group sits in its
own `try`/`except`; an absent locator (a `None` from `find`, a missing
list index, a missing `href`) raises inside the group and the `except`
arm stores the documented default.  Keys appear in assignment order. -/
def extract_startup_info (card : StartupCard) : List (String × PyVal) :=
  let name : PyVal :=
    match card.h3 with
    | some t => .vStr ⟨pyStrip t.data⟩
    | none => .vNone
  let description : PyVal :=
    match card.whatTheyDo with
    | some (some t) => .vStr ⟨pyStrip t.data⟩
    | _ => .vNone
  let industries : PyVal :=
    .vList ((card.industrySpans.filter (fun p => p.2 = some "industry-tags")).map
      (fun p => (⟨pyStrip p.1.data⟩ : String)))
  let location : PyVal :=
    match card.quickFacts with
    | some (some t) =>
      match (pySplitOn "📍HQ: ".data (pyStrip t.data)).get? 1 with
      | some second =>
        match pySplitOn ['\n'] second with
        | first :: _ => .vStr ⟨first⟩
        | [] => .vNone
      | none => .vNone
    | _ => .vNone
  let company_size : PyVal :=
    match card.sizeTags with
    | t :: _ => .vStr ⟨pyStrip t.data⟩
    | [] => .vNone
  let founded_year : PyVal :=
    match card.sizeTags with
    | _ :: t :: _ => .vStr ⟨pyReplaceEmpty "Founded: ".data (pyStrip t.data)⟩
    | _ => .vNone
  let funding := card.fundingTags.foldl fundingStep ([], none, none)
  let website : PyVal :=
    match card.websiteLink with
    | some (some href) =>
      match pySplitOn ['?'] href.data with
      | first :: _ => .vStr ⟨first⟩
      | [] => .vNone
    | _ => .vNone
  [("name", name), ("description", description), ("industries", industries),
   ("location", location), ("company_size", company_size), ("founded_year", founded_year),
   ("investors", .vList funding.1),
   ("latest_funding", match funding.2.1 with | some t => .vStr t | none => .vNone),
   ("valuation", match funding.2.2 with | some t => .vStr t | none => .vNone),
   ("website", website)]

/-! ### sf_bay_area_companies_scraper.py -/

/-- A match attempt of the separator `\s+[–-]\s+` at the head of `l`:
greedy whitespace, an en-dash or hyphen, greedy whitespace; returns the
remainder after the match. -/
def trySep (l : List Char) : Option (List Char) :=
  let w1 := l.takeWhile isPySpace
  if w1.isEmpty then none else
  let r1 := l.drop w1.length
  if r1.head? = some '–' ∨ r1.head? = some '-' then
    let w2 := r1.tail.takeWhile isPySpace
    if w2.isEmpty then none else some (r1.tail.drop w2.length)
  else none

/-- `re.split(r'\s+[–-]\s+', text, maxsplit=1)`: leftmost match of the
separator; returns the parts before and after it, `none` when the
separator does not occur (so the split has a single part). -/
def findSep : List Char → Option (List Char × List Char)
  | [] => none
  | c :: rest =>
    match trySep (c :: rest) with
    | some r => some ([], r)
    | none =>
      match findSep rest with
      | some (a, r) => some (c :: a, r)
      | none => none

/-- Leftmost index at or after `i` (with the given fuel) satisfying `P`. -/
def firstIdxFrom (P : Nat → Bool) : Nat → Nat → Option Nat
  | _, 0 => none
  | i, fuel + 1 => if P i then some i else firstIdxFrom P (i + 1) fuel

/-- Does position `p` of `s` open the parenthetical group of
`re.match(r'(.*?)\s*(?:\((.*?)\))?$', s)`?  The lazy first group (which
cannot cross a newline) must stop just before the whitespace run ending at
`p`, the character at `p` must be `(`, and the lazy inner group must run,
newline-free, from `p+1` to the closing `)` that sits at the position
where `$` can match (the end, or just before a final newline — `core` is
`s` without that final newline). -/
def tpCond (s core : List Char) (p : Nat) : Bool :=
  decide (s[p]? = some '(') && (pyRStrip (s.take p)).all (· ≠ '\n') &&
  decide (p + 1 < core.length) && decide (core.getLast? = some ')') &&
  ((s.take (core.length - 1)).drop (p + 1)).all (· ≠ '\n')

/-- `re.match(r'(.*?)\s*(?:\((.*?)\))?$', s)`: the lazy first group grows
until either the optional parenthetical matches through to `$` (the
earliest feasible `(` wins) or, failing that, until the whole string
(minus trailing whitespace) is consumed with the option skipped; the
match fails altogether only when a newline blocks the first group. -/
def reMatchTrailingParen (s : List Char) : Option (List Char × Option (List Char)) :=
  let core := if s.getLast? = some '\n' then s.dropLast else s
  match firstIdxFrom (tpCond s core) 0 s.length with
  | some p => some (pyRStrip (s.take p), some ((s.take (core.length - 1)).drop (p + 1)))
  | none => if (pyRStrip s).all (· ≠ '\n') then some (pyRStrip s, none) else none

/-- `re.search(r'\((\d+)\)', name)`: first `(` followed by a nonempty
digit run followed by `)`. -/
def rankSearch : List Char → Option Nat
  | [] => none
  | c :: rest =>
    if c = '(' then
      let d := rest.takeWhile Char.isDigit
      if !d.isEmpty && (rest.drop d.length).head? = some ')' then some (digitsVal d)
      else rankSearch rest
    else rankSearch rest

/-- A match attempt of `\s*\(\d+\)` at the head of `l` (for
`re.sub(r'\s*\(\d+\)', '', name)`): greedy whitespace, `(`, a nonempty
digit run, `)`; returns the match length. -/
def tryRank (l : List Char) : Option Nat :=
  let w := l.takeWhile isPySpace
  let r := l.drop w.length
  if r.head? = some '(' then
    let d := r.tail.takeWhile Char.isDigit
    if !d.isEmpty && (r.tail.drop d.length).head? = some ')' then
      some (w.length + 1 + d.length + 1)
    else none
  else none

/-- `parse_list_entry` from sf_bay_area_companies_scraper.py: split on the
first `\s+[–-]\s+` separator (logging and returning `None` when it is
absent), take a trailing parenthetical of the location as notes, and take
a parenthesized integer in the name as the Fortune-500 rank, deleting it
from the name.  No statement in the body can raise, so the `except` arm
is unreachable. -/
def parse_list_entry (text : String) (industry : String) : Option (List (String × PyVal)) :=
  match findSep text.data with
  | none => none
  | some (left, right) =>
    let name0 := pyStrip left
    let loc0 := pyStrip right
    let locNotes : List Char × Option (List Char) :=
      if loc0.any (· = '(') then
        match reMatchTrailingParen loc0 with
        | some (g1, n2) => (pyStrip g1, n2)
        | none => (loc0, none)
      else (loc0, none)
    let rankName : Option Nat × List Char :=
      match rankSearch name0 with
      | some r => (some r, subAll tryRank name0)
      | none => (none, name0)
    some [("name", .vStr ⟨rankName.2⟩), ("industry", .vStr industry),
          ("headquarters", .vStr ⟨locNotes.1⟩),
          ("fortune_500_rank", match rankName.1 with | some r => .vNat r | none => .vNone),
          ("notes", match locNotes.2 with | some n => .vStr ⟨n⟩ | none => .vNone)]

/-- One row of a wiki infobox as seen by `parse_infobox`: the `th` text if
a header cell exists, and the `td` cell (its flat text and the texts of
its nested `li` items) if one exists. -/
structure InfoRow where
  th : Option String
  td : Option (String × List String)

/-- The `field_mapping` table of `parse_infobox`. -/
def field_mapping (h : String) : Option String :=
  if h = "Industry" then some "industry"
  else if h = "Founded" then some "founded"
  else if h = "Headquarters" then some "headquarters"
  else if h = "Revenue" then some "revenue"
  else if h = "Number of employees" then some "employees"
  else if h = "Type" then some "type"
  else if h = "Traded as" then some "traded_as"
  else if h = "Founders" then some "founders"
  else if h = "Key people" then some "key_people"
  else if h = "Services" then some "services"
  else if h = "Subsidiaries" then some "subsidiaries"
  else if h = "Website" then some "website"
  else none

/-- The fields `parse_infobox` treats as list-valued. -/
def listField (f : String) : Bool :=
  f = "services" || f = "subsidiaries" || f = "founders" || f = "key_people"

/-- The assignment a mapped infobox row performs: list fields take their
nested items when present, else the flat text split on commas; scalar
fields take the stripped flat text. -/
def infoAssign (data : List (String × PyVal)) (fn : String) (cell : String × List String) :
    List (String × PyVal) :=
  if listField fn then
    if !cell.2.isEmpty then
      dictSet data fn (.vList (cell.2.map (fun i => (⟨pyStrip i.data⟩ : String))))
    else
      dictSet data fn (.vList ((pySplitOn [','] cell.1.data).map
        (fun v => (⟨pyStrip v⟩ : String))))
  else dictSet data fn (.vStr ⟨pyStrip cell.1.data⟩)

/-- One row step of `parse_infobox`: rows without a header, with an
unmapped header, or without a value cell are skipped; a later row with
the same field overwrites an earlier one. -/
def infoStep (data : List (String × PyVal)) (row : InfoRow) : List (String × PyVal) :=
  match row.th with
  | none => data
  | some h =>
    match field_mapping ⟨pyStrip h.data⟩ with
    | none => data
    | some fn =>
      match row.td with
      | none => data
      | some cell => infoAssign data fn cell

/-- `parse_infobox` from sf_bay_area_companies_scraper.py; `none` models a
page without an `infobox` table, for which `{}` is returned. -/
def parse_infobox (doc : Option (List InfoRow)) : List (String × PyVal) :=
  match doc with
  | none => []
  | some rows => rows.foldl infoStep []

/-- Does `s` start with `pat`? (Python `str.startswith`.) -/
def pyStartsWith (s pat : String) : Bool := startsL pat.data s.data

/-- The scraper's `base_url`. -/
def wiki_base : String := "https://en.wikipedia.org"

/-- One entry of the company list as `process_companies` consumes it: the
`li` text and section industry, the optional `href` of its first link, and
the outcome of fetching the detail page (`none` when `get_page` failed,
otherwise the infobox document). -/
structure WikiEntry where
  text : String
  industry : String
  link : Option String
  fetched : Option (Option (List InfoRow))

/-- `process_companies` from sf_bay_area_companies_scraper.py: entries
whose list text cannot be parsed are skipped; for an entry with a
`/wiki/`-rooted link and a fetched detail page, the infobox data is
`update`d over the list-derived record and `wikipedia_url` is set
(`urljoin` on a root-relative link concatenates it to the base). -/
def process_companies (entries : List WikiEntry) : List (List (String × PyVal)) :=
  entries.filterMap (fun e =>
    match parse_list_entry e.text e.industry with
    | none => none
    | some basic =>
      match e.link with
      | some l =>
        if pyStartsWith l "/wiki/" then
          match e.fetched with
          | some doc =>
            some (dictSet (pyUpdate basic (parse_infobox doc)) "wikipedia_url"
              (.vStr (wiki_base ++ l)))
          | none => some basic
        else some basic
      | none => some basic)


/-! ### Claims -/

/-- C1: the claim that every text normalizer returns normally on every
input fails in the code.  `parse_founded_year` in the startups cleaner
calls `int()` with no guard and raises `ValueError` on the non-empty
non-numeric string "circa 2000" (modelled as `Except.error ()`), and
`parse_currency_field` calls `float()` on the matched amount with no
guard and raises on "$..M"; blank and numeric inputs do return the
documented results. -/
theorem C1_totality_failure :
    parse_founded_year "circa 2000" = .error () ∧
    parse_currency_field "$..M" = .error () ∧
    parse_founded_year "" = .ok none ∧
    parse_founded_year "   " = .ok none ∧
    parse_founded_year " 2015 " = .ok (some 2015) :=
  ⟨rfl, rfl, rfl, rfl, rfl⟩

/-- C2 counterexample: the two currency normalizers do not accept the same
format family.  `parse_revenue` requires the literal `U` before the `$`
and therefore rejects "$4M" (the claim demands `(4.0, "M")`), while
`parse_currency_field` requires an explicit `M`/`B` right after the
number and therefore rejects "US$4.5 billion" (the claim demands
`(4500.0, "B")`). -/
theorem C2_counterexample :
    parse_revenue "$4M" = (none, none) ∧
    parse_currency_field "US$4.5 billion" = .ok (none, none) :=
  ⟨rfl, rfl⟩

/-- C2 amended: `parse_revenue` accepts `US$`-prefixed amounts
("US$12.3 billion", "US$4M", "US$4.5B", "US$7") with billion scaled by
1000 into millions under unit tag "B" and a missing unit defaulting to
"M", but returns `(None, None)` on a bare `$` amount or a bare number;
`parse_currency_field` accepts `$<number><M|B>` with the same billion
scaling, but requires the explicit unit letter, returning `(None, None)`
on "US$4.5 billion" and on a bare number. -/
theorem C2_currency_formats :
    parse_revenue "US$4.5 billion" = (some 4500, some "B") ∧
    parse_revenue "US$12.3 billion" = (some 12300, some "B") ∧
    parse_revenue "US$4M" = (some 4, some "M") ∧
    parse_revenue "US$4.5B" = (some 4500, some "B") ∧
    parse_revenue "US$7" = (some 7, some "M") ∧
    parse_revenue "$4M" = (none, none) ∧
    parse_revenue "1234" = (none, none) ∧
    parse_currency_field "$4M" = .ok (some 4, some "M") ∧
    parse_currency_field "$4.5B" = .ok (some 4500, some "B") ∧
    parse_currency_field "US$4M" = .ok (some 4, some "M") ∧
    parse_currency_field "US$4.5 billion" = .ok (none, none) ∧
    parse_currency_field "1234" = .ok (none, none) := by
  refine ⟨?_, ?_, ?_, ?_, ?_, rfl, rfl, ?_, ?_, ?_, rfl, rfl⟩
  all_goals
    simp +decide [parse_revenue, revSearch, revAfterDollar, parse_currency_field,
      currencySearch, pyFloatDD, pyStrip, pyLStrip, pyRStrip, digitsVal, startsCI, startsL]
  all_goals norm_num

/-- C3: the claim that `clean_headquarters` canonicalizes every "U.S."
variant to "US" fails in the code, contradicting the source comment
"Replace variations like U.S. or  U.S. with US": the pattern
`\bU\.S\.\b` only matches when a word character follows the final
period, and it is case-sensitive, so "U.S.", "u.s." and " U.S. " yield
the three distinct strings "U.S.", "u.s." and "U.S." instead of one
canonical "US" token, and a headquarters string ending in ", U.S." is
returned unchanged; bracket removal and trimming do work, and "U.S.A"
shows the only situation in which the pattern fires. -/
theorem C3_us_normalization_failure :
    clean_headquarters "U.S." = "U.S." ∧
    clean_headquarters "u.s." = "u.s." ∧
    clean_headquarters " U.S. " = "U.S." ∧
    clean_headquarters "San Francisco, California, U.S." = "San Francisco, California, U.S." ∧
    clean_headquarters "City [citation needed]" = "City" ∧
    normalize_location "U.S.A" = "USA" := by
  refine ⟨?_, ?_, ?_, ?_, ?_, ?_⟩
  all_goals
    simp +decide [clean_headquarters, bracketSub, normalize_location, usSub,
      pyStrip, pyLStrip, pyRStrip]

/-! ### Helper lemmas on list scanning -/

theorem takeWhile_app {p : Char → Bool} :
    ∀ (l : List Char) (c : Char) (r : List Char), l.all p = true → p c = false →
      (l ++ c :: r).takeWhile p = l := by
  intro l c r hl hc
  induction l with
  | nil => simp [List.takeWhile, hc]
  | cons a as ih =>
    simp only [List.all_cons, Bool.and_eq_true] at hl
    simp [List.takeWhile, hl.1, ih hl.2]

theorem drop_takeWhile {p : Char → Bool} :
    ∀ l : List Char, l.drop (l.takeWhile p).length = l.dropWhile p := by
  intro l
  induction l with
  | nil => simp
  | cons a as ih =>
    by_cases h : p a
    · simpa [List.takeWhile, List.dropWhile, h] using ih
    · simp [List.takeWhile, List.dropWhile, h]

theorem all_takeWhile {p : Char → Bool} : ∀ l : List Char, (l.takeWhile p).all p = true := by
  intro l
  induction l with
  | nil => simp
  | cons a as ih =>
    by_cases h : p a
    · simp [List.takeWhile, h, ih]
    · simp [List.takeWhile, h]

theorem startsL_iff : ∀ (p l : List Char), startsL p l = true ↔ ∃ r, l = p ++ r := by
  intro p
  induction p with
  | nil => intro l; simp [startsL]
  | cons a as ih =>
    intro l
    cases l with
    | nil => simp [startsL]
    | cons c cs =>
      simp only [startsL, Bool.and_eq_true, decide_eq_true_eq, ih cs]
      constructor
      · rintro ⟨rfl, r, rfl⟩; exact ⟨r, rfl⟩
      · rintro ⟨r, h⟩
        cases h
        exact ⟨rfl, r, rfl⟩

theorem startsL_app_self : ∀ (p r : List Char), startsL p (p ++ r) = true := by
  intro p r
  rw [startsL_iff]
  exact ⟨r, rfl⟩

theorem matchRange_app (ds es rest : List Char) (cd : Char) (hds : ds ≠ []) (hes : es ≠ [])
    (hdall : ds.all Char.isDigit = true) (heall : es.all Char.isDigit = true)
    (hcd : Char.isDigit cd = false) :
    matchRange (ds ++ '-' :: (es ++ cd :: rest)) = some (digitsVal ds, digitsVal es) := by
  have ht : (ds ++ '-' :: (es ++ cd :: rest)).takeWhile Char.isDigit = ds :=
    takeWhile_app ds '-' (es ++ cd :: rest) hdall (by decide)
  have ht2 : (es ++ cd :: rest).takeWhile Char.isDigit = es :=
    takeWhile_app es cd rest heall hcd
  have hne : ds.isEmpty = false := by cases ds with | nil => exact absurd rfl hds | cons a as => rfl
  have hne2 : es.isEmpty = false := by cases es with | nil => exact absurd rfl hes | cons a as => rfl
  simp only [matchRange, ht, List.drop_left, hne, Bool.false_eq_true, if_false,
    List.head?_cons, List.tail_cons, ht2, hne2, if_true, reduceIte]

theorem matchRange_plus_none (ds rest : List Char) (hds : ds ≠ [])
    (hdall : ds.all Char.isDigit = true) :
    matchRange (ds ++ '+' :: rest) = none := by
  have ht : (ds ++ '+' :: rest).takeWhile Char.isDigit = ds :=
    takeWhile_app ds '+' rest hdall (by decide)
  have hne : ds.isEmpty = false := by cases ds with | nil => exact absurd rfl hds | cons a as => rfl
  simp only [matchRange, ht, List.drop_left, hne, Bool.false_eq_true, if_false,
    List.head?_cons, reduceIte]
  simp

theorem matchPlus_app (ds rest : List Char) (hds : ds ≠ [])
    (hdall : ds.all Char.isDigit = true) :
    matchPlus (ds ++ "+ employees".data ++ rest) = some (digitsVal ds) := by
  have ht : (ds ++ ('+' :: (' ' :: "employees".data ++ rest))).takeWhile Char.isDigit = ds :=
    takeWhile_app ds '+' (' ' :: "employees".data ++ rest) hdall (by decide)
  have hne : ds.isEmpty = false := by cases ds with | nil => exact absurd rfl hds | cons a as => rfl
  have hass : ds ++ "+ employees".data ++ rest = ds ++ ('+' :: (' ' :: "employees".data ++ rest)) := by
    simp
  rw [hass]
  have hst : startsL "+ employees".data ('+' :: (' ' :: "employees".data ++ rest)) = true := by
    have h := startsL_app_self "+ employees".data rest
    simpa using h
  simp only [matchPlus, ht, List.drop_left, hne, Bool.false_eq_true, if_false, hst, if_true,
    reduceIte]

/-- C4: for a well-formed `low-high employees` string `parse_company_size`
returns the floor-division midpoint, which lies between the bounds when
`low ≤ high`; for `N+ employees` it returns `N`; and a result is only
ever produced from one of the two recognized shapes (a leading
`digits-digits` range or a leading `digits+ employees`), so a string
matching neither shape yields `None`. -/
theorem C4_company_size :
    (∀ ds es : List Char, ds ≠ [] → es ≠ [] → ds.all Char.isDigit = true →
      es.all Char.isDigit = true →
      parse_company_size ⟨ds ++ '-' :: (es ++ " employees".data)⟩ =
        some ((digitsVal ds + digitsVal es) / 2) ∧
      (digitsVal ds ≤ digitsVal es →
        digitsVal ds ≤ (digitsVal ds + digitsVal es) / 2 ∧
        (digitsVal ds + digitsVal es) / 2 ≤ digitsVal es)) ∧
    (∀ ds : List Char, ds ≠ [] → ds.all Char.isDigit = true →
      parse_company_size ⟨ds ++ "+ employees".data⟩ = some (digitsVal ds)) ∧
    (∀ (s : String) (v : Nat), parse_company_size s = some v →
      (∃ a b r, a ≠ [] ∧ b ≠ [] ∧ a.all Char.isDigit = true ∧ b.all Char.isDigit = true ∧
        s.data = a ++ '-' :: (b ++ r)) ∨
      (∃ a r, a ≠ [] ∧ a.all Char.isDigit = true ∧ s.data = a ++ "+ employees".data ++ r)) := by
  refine ⟨?_, ?_, ?_⟩
  · intro ds es hds hes hdall heall
    refine ⟨?_, fun hle => by omega⟩
    have hm : matchRange (ds ++ '-' :: (es ++ ' ' :: "employees".data)) =
        some (digitsVal ds, digitsVal es) :=
      matchRange_app ds es "employees".data ' ' hds hes hdall heall (by decide)
    have hm2 : matchRange ((⟨ds ++ '-' :: (es ++ " employees".data)⟩ : String).data) =
        some (digitsVal ds, digitsVal es) := hm
    simp only [parse_company_size, hm2]
  · intro ds hds hdall
    have hr : matchRange (ds ++ '+' :: (' ' :: "employees".data)) = none :=
      matchRange_plus_none ds (' ' :: "employees".data) hds hdall
    have hp : matchPlus (ds ++ "+ employees".data ++ []) = some (digitsVal ds) :=
      matchPlus_app ds [] hds hdall
    have hr2 : matchRange ((⟨ds ++ "+ employees".data⟩ : String).data) = none := hr
    have hp2 : matchPlus ((⟨ds ++ "+ employees".data⟩ : String).data) = some (digitsVal ds) := by
      have e : ds ++ "+ employees".data ++ [] = ds ++ "+ employees".data := by simp
      rw [e] at hp
      exact hp
    simp only [parse_company_size, hr2, hp2]
  · intro s v hv
    simp only [parse_company_size] at hv
    cases hmr : matchRange s.data with
    | some p =>
      left
      simp only [matchRange] at hmr
      by_cases h1 : (s.data.takeWhile Char.isDigit).isEmpty = true
      · rw [if_pos h1] at hmr
        exact absurd hmr (by simp)
      · rw [if_neg h1] at hmr
        by_cases hh : (s.data.drop (s.data.takeWhile Char.isDigit).length).head? = some '-'
        · rw [if_pos hh] at hmr
          by_cases h2 : ((s.data.drop (s.data.takeWhile Char.isDigit).length).tail.takeWhile
              Char.isDigit).isEmpty = true
          · rw [if_pos h2] at hmr
            exact absurd hmr (by simp)
          · obtain ⟨r2, hr2⟩ : ∃ r2,
                (s.data.drop (s.data.takeWhile Char.isDigit).length).tail =
                ((s.data.drop (s.data.takeWhile Char.isDigit).length).tail).takeWhile
                  Char.isDigit ++ r2 :=
              ⟨_, (List.takeWhile_append_dropWhile _ _).symm⟩
            refine ⟨s.data.takeWhile Char.isDigit,
              ((s.data.drop (s.data.takeWhile Char.isDigit).length).tail).takeWhile Char.isDigit,
              r2, by simpa using h1, by simpa using h2,
              all_takeWhile s.data, all_takeWhile _, ?_⟩
            have e0 : s.data.drop (s.data.takeWhile Char.isDigit).length =
                '-' :: (s.data.drop (s.data.takeWhile Char.isDigit).length).tail := by
              cases hc : s.data.drop (s.data.takeWhile Char.isDigit).length with
              | nil => rw [hc] at hh; simp at hh
              | cons a as =>
                rw [hc] at hh
                simp only [List.head?_cons, Option.some.injEq] at hh
                rw [hh]
                simp
            have e1 : s.data = s.data.takeWhile Char.isDigit ++
                s.data.drop (s.data.takeWhile Char.isDigit).length := by
              rw [drop_takeWhile]
              exact (List.takeWhile_append_dropWhile _ _).symm
            conv_lhs => rw [e1, e0, hr2]
        · rw [if_neg hh] at hmr
          exact absurd hmr (by simp)
    | none =>
      right
      rw [hmr] at hv
      simp only [matchPlus] at hv
      by_cases h1 : (s.data.takeWhile Char.isDigit).isEmpty = true
      · rw [if_pos h1] at hv
        exact absurd hv (by simp)
      · rw [if_neg h1] at hv
        by_cases hst : startsL "+ employees".data
            (s.data.drop (s.data.takeWhile Char.isDigit).length) = true
        · obtain ⟨r, hr⟩ := (startsL_iff _ _).mp hst
          refine ⟨s.data.takeWhile Char.isDigit, r, by simpa using h1, all_takeWhile s.data, ?_⟩
          have e1 : s.data = s.data.takeWhile Char.isDigit ++
              s.data.drop (s.data.takeWhile Char.isDigit).length := by
            rw [drop_takeWhile]
            exact (List.takeWhile_append_dropWhile _ _).symm
          conv_lhs => rw [e1, hr]
          simp
        · rw [if_neg hst] at hv
          exact absurd hv (by simp)

/-- C4 witness: the range and plus shapes at the spec example inputs. -/
theorem C4_witness :
    parse_company_size "201-500 employees" = some 350 ∧
    parse_company_size "5000+ employees" = some 5000 := by
  constructor
  · have e : ("201-500 employees" : String) =
        ⟨"201".data ++ '-' :: ("500".data ++ " employees".data)⟩ := by decide
    have h := (C4_company_size.1 "201".data "500".data (by decide) (by decide) (by decide)
      (by decide)).1
    rw [e, h]
    decide
  · have e : ("5000+ employees" : String) = ⟨"5000".data ++ "+ employees".data⟩ := by decide
    have h := C4_company_size.2.1 "5000".data (by decide) (by decide)
    rw [e, h]
    decide

theorem findall4_mem : ∀ (l : List Char), ∀ m ∈ findall4 l,
    ∃ pre post, l = pre ++ m ++ post ∧ m.length = 4 ∧ m.all Char.isDigit = true := by
  intro l
  induction l using findall4.induct with
  | case1 a b c d rest h ih =>
    intro m hm
    rw [findall4, if_pos h] at hm
    cases hm with
    | head =>
      refine ⟨[], rest, by simp, by simp, ?_⟩
      simp only [Bool.and_eq_true] at h
      simp [h.1.1.1, h.1.1.2, h.1.2, h.2]
    | tail _ hm2 =>
      obtain ⟨pre, post, he, hl4, hall⟩ := ih m hm2
      exact ⟨a :: b :: c :: d :: pre, post, by simp [he], hl4, hall⟩
  | case2 a b c d rest h ih =>
    intro m hm
    rw [findall4, if_neg h] at hm
    obtain ⟨pre, post, he, hl4, hall⟩ := ih m hm
    exact ⟨a :: pre, post, by simp [he], hl4, hall⟩
  | case3 l h =>
    intro m hm
    exfalso
    rcases l with _ | ⟨a, _ | ⟨b, _ | ⟨c, _ | ⟨d, rest⟩⟩⟩⟩
    · simp [findall4] at hm
    · simp [findall4] at hm
    · simp [findall4] at hm
    · simp [findall4] at hm
    · exact h a b c d rest rfl

theorem findall4_complete : ∀ (l pre m post : List Char), l = pre ++ m ++ post →
    m.length = 4 → m.all Char.isDigit = true → findall4 l ≠ [] := by
  intro l
  induction l using findall4.induct with
  | case1 a b c d rest h ih =>
    intro pre m post he hl4 hall
    rw [findall4, if_pos h]
    simp
  | case2 a b c d rest h ih =>
    intro pre m post he hl4 hall
    rw [findall4, if_neg h]
    cases pre with
    | nil =>
      exfalso
      rcases m with _ | ⟨m1, _ | ⟨m2, _ | ⟨m3, _ | ⟨m4, mrest⟩⟩⟩⟩ <;>
        simp only [List.length_nil, List.length_cons] at hl4
      · omega
      · omega
      · omega
      · omega
      · have hmr : mrest = [] := List.length_eq_zero.mp (by omega)
        subst hmr
        simp only [List.nil_append, List.cons_append, List.cons.injEq] at he
        obtain ⟨e1, e2, e3, e4, _⟩ := he
        simp only [List.all_cons, List.all_nil, Bool.and_eq_true] at hall
        apply h
        rw [e1, e2, e3, e4]
        simp [hall.1, hall.2.1, hall.2.2.1, hall.2.2.2.1]
    | cons p ps =>
      simp only [List.cons_append, List.cons.injEq] at he
      exact ih ps m post he.2 hl4 hall
  | case3 l h =>
    intro pre m post he hl4 hall
    exfalso
    rcases l with _ | ⟨a, _ | ⟨b, _ | ⟨c, _ | ⟨d, rest⟩⟩⟩⟩
    · have := congrArg List.length he
      simp at this
      omega
    · have := congrArg List.length he
      simp at this
      omega
    · have := congrArg List.length he
      simp at this
      omega
    · have := congrArg List.length he
      simp at this
      omega
    · exact h a b c d rest rfl

theorem foldl_min_mem : ∀ (ys : List Nat) (y : Nat), ys.foldl min y ∈ y :: ys := by
  intro ys
  induction ys with
  | nil => intro y; simp
  | cons z zs ih =>
    intro y
    simp only [List.foldl_cons, List.mem_cons]
    rcases List.mem_cons.mp (ih (min y z)) with h1 | h1
    · rcases Nat.le_total y z with hle | hle
      · exact Or.inl (h1.trans (Nat.min_eq_left hle))
      · exact Or.inr (Or.inl (h1.trans (Nat.min_eq_right hle)))
    · exact Or.inr (Or.inr h1)

theorem foldl_min_le : ∀ (ys : List Nat) (y : Nat),
    ys.foldl min y ≤ y ∧ ∀ z ∈ ys, ys.foldl min y ≤ z := by
  intro ys
  induction ys with
  | nil => intro y; exact ⟨Nat.le_refl y, by simp⟩
  | cons w ws ih =>
    intro y
    simp only [List.foldl_cons]
    refine ⟨le_trans (ih (min y w)).1 (Nat.min_le_left y w), ?_⟩
    intro z hz
    rcases List.mem_cons.mp hz with h1 | h1
    · subst h1
      exact le_trans (ih (min y z)).1 (Nat.min_le_right y z)
    · exact (ih (min y w)).2 z h1

/-- C5: the founded-year pipeline first strips the `N years ago`
qualifiers (`clean_founded`), then `parse_year_field` returns the minimum
of the 4-digit tokens the scan extracts from what remains: it returns a
value exactly when four consecutive digits remain, the value is one of
the extracted tokens and is the least of them, and on the spec example
the composition yields 2015. -/
theorem C5_founded_year :
    parse_year_field (clean_founded "Founded: 2015; 9 years ago (2015)") = some 2015 ∧
    (∀ s : String,
      (parse_year_field (clean_founded s)).isSome = true ↔
        ∃ pre m post, (clean_founded s).data = pre ++ m ++ post ∧ m.length = 4 ∧
          m.all Char.isDigit = true) ∧
    (∀ (s : String) (y : Nat), parse_year_field (clean_founded s) = some y →
      y ∈ (findall4 (clean_founded s).data).map digitsVal ∧
      ∀ z ∈ (findall4 (clean_founded s).data).map digitsVal, y ≤ z) := by
  have key : ∀ t : String,
      ((parse_year_field t).isSome = true ↔
        ∃ pre m post, t.data = pre ++ m ++ post ∧ m.length = 4 ∧ m.all Char.isDigit = true) ∧
      (∀ y : Nat, parse_year_field t = some y →
        y ∈ (findall4 t.data).map digitsVal ∧
        ∀ z ∈ (findall4 t.data).map digitsVal, y ≤ z) := by
    intro t
    constructor
    · constructor
      · intro hs
        simp only [parse_year_field] at hs
        by_cases he : t.data = []
        · rw [if_pos he] at hs
          simp at hs
        · rw [if_neg he] at hs
          cases hf : (findall4 t.data).map digitsVal with
          | nil => rw [hf] at hs; simp at hs
          | cons y ys =>
            have hne : findall4 t.data ≠ [] := by
              intro h0
              rw [h0] at hf
              simp at hf
            cases hm : findall4 t.data with
            | nil => exact absurd hm hne
            | cons m ms =>
              obtain ⟨pre, post, hbody, hl4, hall⟩ :=
                findall4_mem t.data m (by rw [hm]; exact List.mem_cons_self m ms)
              exact ⟨pre, m, post, hbody, hl4, hall⟩
      · rintro ⟨pre, m, post, hbody, hl4, hall⟩
        have hne : findall4 t.data ≠ [] := findall4_complete t.data pre m post hbody hl4 hall
        have hde : t.data ≠ [] := by
          intro h0
          rw [h0] at hbody
          have := congrArg List.length hbody
          simp at this
          omega
        simp only [parse_year_field, if_neg hde]
        cases hf : (findall4 t.data).map digitsVal with
        | nil =>
          exfalso
          apply hne
          simpa using hf
        | cons y ys => simp
    · intro y hy
      simp only [parse_year_field] at hy
      by_cases he : t.data = []
      · rw [if_pos he] at hy
        simp at hy
      · rw [if_neg he] at hy
        cases hm : findall4 t.data with
        | nil => rw [hm] at hy; simp at hy
        | cons m ms =>
          rw [hm] at hy
          simp only [List.map_cons] at hy
          simp at hy
          subst hy
          simp only [List.map_cons]
          refine ⟨foldl_min_mem _ _, ?_⟩
          intro z hz
          rcases List.mem_cons.mp hz with h1 | h1
          · subst h1
            exact (foldl_min_le _ _).1
          · exact (foldl_min_le _ _).2 z h1
  have hc : clean_founded "Founded: 2015; 9 years ago (2015)" = "Founded: 2015" := by
    simp +decide [clean_founded, subAll, tryYearsAgo, tryYearsAgoParen, pyStrip, pyLStrip,
      pyRStrip, pyStripSet, startsCI, startsL]
  refine ⟨?_, fun s => (key (clean_founded s)).1, fun s => (key (clean_founded s)).2⟩
  rw [hc]
  decide

/-- C5 witness: on the spec example the extracted minimum year 2015 is a
member of, and a lower bound of, the extracted token values. -/
theorem C5_witness :
    2015 ∈ (findall4 (clean_founded "Founded: 2015; 9 years ago (2015)").data).map digitsVal ∧
    parse_year_field (clean_founded "Founded: 2015; 9 years ago (2015)") = some 2015 := by
  have h1 := C5_founded_year.1
  have h2 := (C5_founded_year.2.2 "Founded: 2015; 9 years ago (2015)" 2015 h1).1
  exact ⟨h2, h1⟩

/-- C6: `extract_startup_info` is total and always yields a record with
exactly the ten recognized keys in order; each field whose locator is
absent carries its documented `None`/empty-list default; and each field's
value depends only on its own locator, so the absence or failure of one
field never affects another. -/
theorem C6_extract_total (c : StartupCard) :
    ((extract_startup_info c).map Prod.fst =
      ["name", "description", "industries", "location", "company_size", "founded_year",
       "investors", "latest_funding", "valuation", "website"]) ∧
    (c.h3 = none → (extract_startup_info c).lookup "name" = some PyVal.vNone) ∧
    (c.whatTheyDo = none → (extract_startup_info c).lookup "description" = some PyVal.vNone) ∧
    (c.industrySpans = [] →
      (extract_startup_info c).lookup "industries" = some (PyVal.vList [])) ∧
    (c.quickFacts = none → (extract_startup_info c).lookup "location" = some PyVal.vNone) ∧
    (c.sizeTags = [] →
      (extract_startup_info c).lookup "company_size" = some PyVal.vNone ∧
      (extract_startup_info c).lookup "founded_year" = some PyVal.vNone) ∧
    (c.fundingTags = [] →
      (extract_startup_info c).lookup "investors" = some (PyVal.vList []) ∧
      (extract_startup_info c).lookup "latest_funding" = some PyVal.vNone ∧
      (extract_startup_info c).lookup "valuation" = some PyVal.vNone) ∧
    (c.websiteLink = none → (extract_startup_info c).lookup "website" = some PyVal.vNone) ∧
    (∀ c' : StartupCard, c.h3 = c'.h3 →
      (extract_startup_info c).lookup "name" = (extract_startup_info c').lookup "name") ∧
    (∀ c' : StartupCard, c.whatTheyDo = c'.whatTheyDo →
      (extract_startup_info c).lookup "description" =
      (extract_startup_info c').lookup "description") ∧
    (∀ c' : StartupCard, c.industrySpans = c'.industrySpans →
      (extract_startup_info c).lookup "industries" =
      (extract_startup_info c').lookup "industries") ∧
    (∀ c' : StartupCard, c.quickFacts = c'.quickFacts →
      (extract_startup_info c).lookup "location" = (extract_startup_info c').lookup "location") ∧
    (∀ c' : StartupCard, c.sizeTags = c'.sizeTags →
      (extract_startup_info c).lookup "company_size" =
        (extract_startup_info c').lookup "company_size" ∧
      (extract_startup_info c).lookup "founded_year" =
        (extract_startup_info c').lookup "founded_year") ∧
    (∀ c' : StartupCard, c.fundingTags = c'.fundingTags →
      (extract_startup_info c).lookup "investors" =
        (extract_startup_info c').lookup "investors" ∧
      (extract_startup_info c).lookup "latest_funding" =
        (extract_startup_info c').lookup "latest_funding" ∧
      (extract_startup_info c).lookup "valuation" =
        (extract_startup_info c').lookup "valuation") ∧
    (∀ c' : StartupCard, c.websiteLink = c'.websiteLink →
      (extract_startup_info c).lookup "website" = (extract_startup_info c').lookup "website") := by
  refine ⟨by simp [extract_startup_info], ?_, ?_, ?_, ?_, ?_, ?_, ?_, ?_, ?_, ?_, ?_, ?_, ?_, ?_⟩
  · intro h
    simp +decide [extract_startup_info, List.lookup, h]
  · intro h
    simp +decide [extract_startup_info, List.lookup, h]
  · intro h
    simp +decide [extract_startup_info, List.lookup, h]
  · intro h
    simp +decide [extract_startup_info, List.lookup, h]
  · intro h
    simp +decide [extract_startup_info, List.lookup, h]
  · intro h
    simp +decide [extract_startup_info, List.lookup, h, fundingStep]
  · intro h
    simp +decide [extract_startup_info, List.lookup, h]
  · intro c' h
    simp +decide [extract_startup_info, List.lookup, h]
  · intro c' h
    simp +decide [extract_startup_info, List.lookup, h]
  · intro c' h
    simp +decide [extract_startup_info, List.lookup, h]
  · intro c' h
    simp +decide [extract_startup_info, List.lookup, h]
  · intro c' h
    simp +decide [extract_startup_info, List.lookup, h]
  · intro c' h
    simp +decide [extract_startup_info, List.lookup, h]
  · intro c' h
    simp +decide [extract_startup_info, List.lookup, h]

/-- C6 witness: the defaults on a card whose every locator is absent. -/
theorem C6_witness :
    (extract_startup_info ⟨none, none, [], none, [], [], none⟩).lookup "name" =
      some PyVal.vNone ∧
    (extract_startup_info ⟨none, none, [], none, [], [], none⟩).lookup "industries" =
      some (PyVal.vList []) ∧
    (extract_startup_info ⟨none, none, [], none, [], [], none⟩).map Prod.fst =
      ["name", "description", "industries", "location", "company_size", "founded_year",
       "investors", "latest_funding", "valuation", "website"] := by
  have h := C6_extract_total ⟨none, none, [], none, [], [], none⟩
  exact ⟨h.2.1 rfl, h.2.2.2.1 rfl, h.1⟩

/-- The strip applied to each funding tag text. -/
def stripS (t : String) : String := ⟨pyStrip t.data⟩

/-- The latest-funding condition of the funding-tag loop: the text
contains `Series` (case-sensitively) or its lower-casing contains
`seed`. -/
def fundCond1 (t : String) : Bool :=
  containsL "Series".data t.data || containsL "seed".data (t.data.map Char.toLower)

/-- The valuation condition of the funding-tag loop: the lower-cased text
contains `valuation`. -/
def fundCond2 (t : String) : Bool := containsL "valuation".data (t.data.map Char.toLower)

theorem fundingStep_foldl : ∀ (ts : List String) (inv : List String) (lf vl : Option String),
    ts.foldl fundingStep (inv, lf, vl) =
      (inv ++ (ts.map stripS).filter (fun t => !fundCond1 t && !fundCond2 t),
       ((ts.map stripS).reverse.find? fundCond1).or lf,
       ((ts.map stripS).reverse.find? (fun t => !fundCond1 t && fundCond2 t)).or vl) := by
  intro ts
  induction ts with
  | nil => intro inv lf vl; simp
  | cons r rs ih =>
    intro inv lf vl
    simp only [List.foldl_cons, List.map_cons, List.reverse_cons, List.filter_cons,
      List.find?_append]
    have hstep : fundingStep (inv, lf, vl) r =
        if fundCond1 (stripS r) then (inv, some (stripS r), vl)
        else if fundCond2 (stripS r) then (inv, lf, some (stripS r))
        else (inv ++ [stripS r], lf, vl) := by
      simp only [fundingStep, stripS, fundCond1, fundCond2]
    rw [hstep]
    by_cases h1 : fundCond1 (stripS r) = true
    · rw [if_pos h1, ih]
      have e2 : List.find? fundCond1 [stripS r] = some (stripS r) := by
        simp [List.find?, h1]
      have e3 : List.find? (fun t => !fundCond1 t && fundCond2 t) [stripS r] = none := by
        simp [List.find?, h1]
      have efil : (!fundCond1 (stripS r) && !fundCond2 (stripS r)) = false := by simp [h1]
      rw [e2, e3, efil]
      simp only [Bool.false_eq_true, if_false, reduceIte, Option.or_none, Option.or_some]
      refine congrArg (fun z => (inv ++ (rs.map stripS).filter _, z,
        ((rs.map stripS).reverse.find? _).or vl)) ?_
      cases (rs.map stripS).reverse.find? fundCond1 <;> rfl
    · have h1f : fundCond1 (stripS r) = false := by
        cases hx : fundCond1 (stripS r) with
        | true => exact absurd hx h1
        | false => rfl
      rw [if_neg h1]
      by_cases h2 : fundCond2 (stripS r) = true
      · rw [if_pos h2, ih]
        have e2 : List.find? fundCond1 [stripS r] = none := by
          simp [List.find?, h1f]
        have e3 : List.find? (fun t => !fundCond1 t && fundCond2 t) [stripS r] =
            some (stripS r) := by
          simp [List.find?, h1f, h2]
        have efil : (!fundCond1 (stripS r) && !fundCond2 (stripS r)) = false := by
          simp [h2]
        rw [e2, e3, efil]
        simp only [Bool.false_eq_true, if_false, reduceIte, Option.or_none]
        refine congrArg (fun z => (inv ++ (rs.map stripS).filter _,
          ((rs.map stripS).reverse.find? _).or lf, z)) ?_
        cases (rs.map stripS).reverse.find? (fun t => !fundCond1 t && fundCond2 t) <;> rfl
      · have h2f : fundCond2 (stripS r) = false := by
          cases hx : fundCond2 (stripS r) with
          | true => exact absurd hx h2
          | false => rfl
        rw [if_neg h2, ih]
        have e2 : List.find? fundCond1 [stripS r] = none := by
          simp [List.find?, h1f]
        have e3 : List.find? (fun t => !fundCond1 t && fundCond2 t) [stripS r] = none := by
          simp [List.find?, h1f, h2f]
        have efil : (!fundCond1 (stripS r) && !fundCond2 (stripS r)) = true := by
          simp [h1f, h2f]
        rw [e2, e3, efil]
        simp only [if_true, Option.or_none, reduceIte, List.append_assoc, List.singleton_append]

/-- C9 counterexample: a funding tag whose text contains the lower-case
word "series" — e.g. "series B round" — is appended to the investors
list, not assigned to latest funding, because the code checks for the
capitalized literal `Series` case-sensitively (only `seed` and
`valuation` are compared case-insensitively). -/
theorem C9_counterexample :
    (extract_startup_info ⟨some "X", none, [], none, [], ["series B round"], none⟩).lookup
      "latest_funding" = some PyVal.vNone ∧
    (extract_startup_info ⟨some "X", none, [], none, [], ["series B round"], none⟩).lookup
      "investors" = some (PyVal.vList ["series B round"]) := by
  constructor <;> decide

/-- C9 amended: for every card, the funding-tag loop classifies each
stripped tag text by exactly one of three disjoint conditions — contains
`Series` (case-sensitive) or lower-cased contains `seed`, which feeds
latest funding with the last such tag winning; otherwise lower-cased
contains `valuation`, which feeds valuation with the last such tag
winning; otherwise the text is appended, in order, to the investors
list. -/
theorem C9_classification (c : StartupCard) :
    ((extract_startup_info c).lookup "investors" =
      some (.vList ((c.fundingTags.map stripS).filter
        (fun t => !fundCond1 t && !fundCond2 t)))) ∧
    ((extract_startup_info c).lookup "latest_funding" =
      some (match (c.fundingTags.map stripS).reverse.find? fundCond1 with
            | some t => PyVal.vStr t
            | none => PyVal.vNone)) ∧
    ((extract_startup_info c).lookup "valuation" =
      some (match (c.fundingTags.map stripS).reverse.find?
              (fun t => !fundCond1 t && fundCond2 t) with
            | some t => PyVal.vStr t
            | none => PyVal.vNone)) ∧
    (∀ t : String,
      (fundCond1 t = true ∧ (!fundCond1 t && fundCond2 t) = false ∧
        (!fundCond1 t && !fundCond2 t) = false) ∨
      (fundCond1 t = false ∧ (!fundCond1 t && fundCond2 t) = true ∧
        (!fundCond1 t && !fundCond2 t) = false) ∨
      (fundCond1 t = false ∧ (!fundCond1 t && fundCond2 t) = false ∧
        (!fundCond1 t && !fundCond2 t) = true)) := by
  have hf := fundingStep_foldl c.fundingTags [] none none
  refine ⟨?_, ?_, ?_, ?_⟩
  · simp +decide [extract_startup_info, List.lookup, hf]
  · simp +decide [extract_startup_info, List.lookup, hf]
  · simp +decide [extract_startup_info, List.lookup, hf]
  · intro t
    cases h1 : fundCond1 t <;> cases h2 : fundCond2 t <;> simp [h1, h2]

/-- A whitespace-surrounded en-dash/hyphen separator occurs somewhere in
`l` (the language of `\s+[–-]\s+`). -/
def hasSepL (l : List Char) : Prop :=
  ∃ a w1 d w2 b, l = a ++ w1 ++ d :: (w2 ++ b) ∧ w1 ≠ [] ∧ w2 ≠ [] ∧
    w1.all isPySpace = true ∧ w2.all isPySpace = true ∧ (d = '–' ∨ d = '-')

theorem trySep_some_decomp (l r : List Char) (h : trySep l = some r) :
    ∃ w1 d w2, l = w1 ++ d :: (w2 ++ r) ∧ w1 ≠ [] ∧ w2 ≠ [] ∧
      w1.all isPySpace = true ∧ w2.all isPySpace = true ∧ (d = '–' ∨ d = '-') := by
  simp only [trySep] at h
  by_cases h1 : (l.takeWhile isPySpace).isEmpty = true
  · rw [if_pos h1] at h
    exact absurd h (by simp)
  · rw [if_neg h1] at h
    by_cases hd : (l.drop (l.takeWhile isPySpace).length).head? = some '–' ∨
        (l.drop (l.takeWhile isPySpace).length).head? = some '-'
    · rw [if_pos hd] at h
      by_cases h2 : ((l.drop (l.takeWhile isPySpace).length).tail.takeWhile
          isPySpace).isEmpty = true
      · rw [if_pos h2] at h
        exact absurd h (by simp)
      · rw [if_neg h2] at h
        simp only [Option.some.injEq] at h
        obtain ⟨dd, hdd, hdor⟩ : ∃ dd, (l.drop (l.takeWhile isPySpace).length).head? = some dd ∧
            (dd = '–' ∨ dd = '-') := by
          rcases hd with hd | hd
          · exact ⟨'–', hd, Or.inl rfl⟩
          · exact ⟨'-', hd, Or.inr rfl⟩
        have e0 : l.drop (l.takeWhile isPySpace).length =
            dd :: (l.drop (l.takeWhile isPySpace).length).tail := by
          cases hcc : l.drop (l.takeWhile isPySpace).length with
          | nil => rw [hcc] at hdd; simp at hdd
          | cons a as =>
            rw [hcc] at hdd
            simp only [List.head?_cons, Option.some.injEq] at hdd
            rw [hdd]
            simp
        refine ⟨l.takeWhile isPySpace, dd,
          (l.drop (l.takeWhile isPySpace).length).tail.takeWhile isPySpace,
          ?_, by simpa using h1, by simpa using h2, all_takeWhile l, all_takeWhile _, hdor⟩
        have e1 : l = l.takeWhile isPySpace ++ l.drop (l.takeWhile isPySpace).length := by
          rw [drop_takeWhile]
          exact (List.takeWhile_append_dropWhile _ _).symm
        have e2 := (List.takeWhile_append_dropWhile isPySpace
          ((l.drop (l.takeWhile isPySpace).length).tail)).symm
        rw [drop_takeWhile] at h
        conv_lhs => rw [e1, e0]
        rw [← h]
        conv_lhs => rw [e2]
    · rw [if_neg hd] at h
      exact absurd h (by simp)

theorem trySep_complete (w1 w2 b : List Char) (d : Char) (h1 : w1 ≠ []) (h2 : w2 ≠ [])
    (ha1 : w1.all isPySpace = true) (ha2 : w2.all isPySpace = true)
    (hd : d = '–' ∨ d = '-') : (trySep (w1 ++ d :: (w2 ++ b))).isSome = true := by
  have hdns : isPySpace d = false := by
    rcases hd with h | h <;> rw [h] <;> decide
  have ht : (w1 ++ d :: (w2 ++ b)).takeWhile isPySpace = w1 :=
    takeWhile_app w1 d (w2 ++ b) ha1 hdns
  have hne : w1.isEmpty = false := by
    cases w1 with | nil => exact absurd rfl h1 | cons a as => rfl
  simp only [trySep, ht, hne, Bool.false_eq_true, if_false, List.drop_left, reduceIte,
    List.head?_cons, List.tail_cons]
  have hdt : (some d = some '–' ∨ some d = some '-') := by
    rcases hd with h | h
    · exact Or.inl (by rw [h])
    · exact Or.inr (by rw [h])
  rw [if_pos hdt]
  cases w2 with
  | nil => exact absurd rfl h2
  | cons x xs =>
    have hx : isPySpace x = true := by
      simp only [List.all_cons, Bool.and_eq_true] at ha2
      exact ha2.1
    simp [List.takeWhile, hx]

theorem findSep_isSome_iff : ∀ l : List Char, (findSep l).isSome = true ↔ hasSepL l := by
  intro l
  induction l with
  | nil =>
    simp only [findSep, Option.isSome_none, Bool.false_eq_true, false_iff]
    rintro ⟨a, w1, d, w2, b, he, h1, -, -, -, -⟩
    cases w1 with
    | nil => exact h1 rfl
    | cons x xs =>
      have hlen := congrArg List.length he
      simp at hlen
      all_goals omega
  | cons c rest ih =>
    constructor
    · intro hs
      simp only [findSep] at hs
      cases hts : trySep (c :: rest) with
      | some r =>
        obtain ⟨w1, d, w2, he, h1, h2, ha1, ha2, hd⟩ := trySep_some_decomp (c :: rest) r hts
        exact ⟨[], w1, d, w2, r, by simpa using he, h1, h2, ha1, ha2, hd⟩
      | none =>
        rw [hts] at hs
        cases hfs : findSep rest with
        | none => rw [hfs] at hs; simp at hs
        | some p =>
          have hss : (findSep rest).isSome = true := by rw [hfs]; rfl
          obtain ⟨a, w1, d, w2, b, he, h1, h2, ha1, ha2, hd⟩ := ih.mp hss
          exact ⟨c :: a, w1, d, w2, b, by simp [he], h1, h2, ha1, ha2, hd⟩
    · rintro ⟨a, w1, d, w2, b, he, h1, h2, ha1, ha2, hd⟩
      cases a with
      | nil =>
        simp only [List.nil_append] at he
        have hts := trySep_complete w1 w2 b d h1 h2 ha1 ha2 hd
        rw [← he] at hts
        simp only [findSep]
        cases htr : trySep (c :: rest) with
        | none => rw [htr] at hts; simp at hts
        | some r => simp
      | cons x xs =>
        simp only [List.cons_append, List.cons.injEq] at he
        have hrest : hasSepL rest :=
          ⟨xs, w1, d, w2, b, he.2, h1, h2, ha1, ha2, hd⟩
        have hss := ih.mpr hrest
        simp only [findSep]
        cases htr : trySep (c :: rest) with
        | some r => simp
        | none =>
          cases hfs : findSep rest with
          | none => rw [hfs] at hss; simp at hss
          | some p => simp

/-- C7: `parse_list_entry` returns `None` exactly when the line has no
whitespace-surrounded en-dash/hyphen separator; when it succeeds it
returns a record with the five entity fields; and `process_companies`
drops exactly such a malformed entity, leaving the processing of every
other entry unchanged. -/
theorem C7_malformed_entry :
    (∀ (t ind : String), parse_list_entry t ind = none ↔ ¬ hasSepL t.data) ∧
    (∀ (t ind : String) (r : List (String × PyVal)), parse_list_entry t ind = some r →
      r.map Prod.fst = ["name", "industry", "headquarters", "fortune_500_rank", "notes"]) ∧
    (∀ (pre post : List WikiEntry) (e : WikiEntry),
      parse_list_entry e.text e.industry = none →
      process_companies (pre ++ e :: post) = process_companies (pre ++ post)) := by
  refine ⟨?_, ?_, ?_⟩
  · intro t ind
    constructor
    · intro h hs
      have hsome := (findSep_isSome_iff t.data).mpr hs
      cases hf : findSep t.data with
      | none => rw [hf] at hsome; simp at hsome
      | some p =>
        rw [parse_list_entry.eq_def, hf] at h
        exact absurd h (by simp)
    · intro hn
      cases hf : findSep t.data with
      | none => rw [parse_list_entry.eq_def, hf]
      | some p =>
        exfalso
        apply hn
        apply (findSep_isSome_iff t.data).mp
        rw [hf]
        rfl
  · intro t ind r hr
    rw [parse_list_entry.eq_def] at hr
    cases hf : findSep t.data with
    | none => rw [hf] at hr; exact absurd hr (by simp)
    | some p =>
      rw [hf] at hr
      simp only [Option.some.injEq] at hr
      rw [← hr]
      simp
  · intro pre post e h
    simp only [process_companies, List.filterMap_append, List.filterMap_cons, h]

/-- C7 witness: a line with no separator is dropped from processing, and
the spec example line parses. -/
theorem C7_witness :
    process_companies [⟨"no separator here", "Tech", none, none⟩] = process_companies [] ∧
    (parse_list_entry "Acme – SF" "Tech").isSome = true := by
  constructor
  · exact C7_malformed_entry.2.2 [] [] ⟨"no separator here", "Tech", none, none⟩ rfl
  · rfl

theorem dictSet_lookup (k k' : String) (v : PyVal) :
    ∀ d : List (String × PyVal),
      (dictSet d k v).lookup k' = if k' = k then some v else d.lookup k' := by
  intro d
  induction d with
  | nil =>
    by_cases hk : k' = k
    · subst hk
      simp [dictSet, List.lookup]
    · have hbeq : (k' == k) = false := by
        simp only [beq_eq_false_iff_ne, ne_eq]
        exact hk
      simp [dictSet, List.lookup, hbeq, hk]
  | cons p tl ih =>
    simp only [dictSet]
    by_cases hp : p.1 = k
    · rw [if_pos hp]
      by_cases hk : k' = k
      · subst hk
        have hbeq : (k' == k') = true := by simp
        simp [List.lookup, hbeq]
      · have hbeq : (k' == k) = false := by
          simp only [beq_eq_false_iff_ne, ne_eq]
          exact hk
        have hbeq2 : (k' == p.1) = false := by
          simp only [beq_eq_false_iff_ne, ne_eq]
          rw [hp]
          exact hk
        rcases p with ⟨a, b⟩
        simp only at hp
        simp [List.lookup, hbeq, hbeq2, hk]
    · rw [if_neg hp]
      rcases p with ⟨a, b⟩
      simp only at hp
      by_cases hka : k' = a
      · subst hka
        have hbeq : (k' == k') = true := by simp
        have hkk : k' = k ↔ False := by
          constructor
          · intro hx
            exact hp (by rw [← hx])
          · intro hx
            exact hx.elim
        simp [List.lookup, hbeq, hkk]
      · have hbeq : (k' == a) = false := by
          simp only [beq_eq_false_iff_ne, ne_eq]
          exact hka
        simp only [List.lookup, hbeq, ih]

theorem pyUpdate_lookup : ∀ (new old : List (String × PyVal)) (k : String),
    (pyUpdate old new).lookup k =
      (Option.map Prod.snd (new.reverse.find? (fun p => p.1 = k))).or (old.lookup k) := by
  intro new
  induction new with
  | nil => intro old k; simp [pyUpdate]
  | cons p rest ih =>
    intro old k
    have e : pyUpdate old (p :: rest) = pyUpdate (dictSet old p.1 p.2) rest := rfl
    rw [e, ih, dictSet_lookup]
    simp only [List.reverse_cons, List.find?_append]
    cases hf : rest.reverse.find? (fun q => q.1 = k) with
    | some x => simp [Option.or]
    | none =>
      by_cases hpk : p.1 = k
      · have h1 : (if k = p.1 then some p.2 else old.lookup k) = some p.2 := by
          rw [if_pos hpk.symm]
        have h2 : List.find? (fun q => decide (q.1 = k)) [p] = some p := by
          simp [List.find?, hpk]
        rw [h1, h2]
        simp [Option.or]
      · have h1 : (if k = p.1 then some p.2 else old.lookup k) = old.lookup k := by
          rw [if_neg (fun hx => hpk hx.symm)]
        have h2 : List.find? (fun q => decide (q.1 = k)) [p] = none := by
          simp [List.find?, hpk]
        rw [h1, h2]
        simp [Option.or]

theorem find_reverse_eq_lookup (k : String) :
    ∀ d : List (String × PyVal), (d.map Prod.fst).Nodup →
      Option.map Prod.snd (d.reverse.find? (fun p => p.1 = k)) = d.lookup k := by
  intro d
  induction d with
  | nil => intro h; simp
  | cons p tl ih =>
    intro hnd
    simp only [List.map_cons, List.nodup_cons] at hnd
    simp only [List.reverse_cons, List.find?_append]
    by_cases hpk : p.1 = k
    · have hnone : tl.reverse.find? (fun q => decide (q.1 = k)) = none := by
        apply List.find?_eq_none.mpr
        intro x hx
        simp only [decide_eq_true_eq]
        intro hxk
        apply hnd.1
        rw [← hpk] at hxk
        rw [← hxk]
        exact List.mem_map_of_mem Prod.fst (List.mem_reverse.mp hx)
      have h2 : List.find? (fun q => decide (q.1 = k)) [p] = some p := by
        simp [List.find?, hpk]
      rw [hnone, h2]
      have hbeq : (k == p.1) = true := by simp [hpk]
      simp [Option.or, List.lookup, hbeq]
    · have h2 : List.find? (fun q => decide (q.1 = k)) [p] = none := by
        simp [List.find?, hpk]
      rw [h2]
      have hbeq : (k == p.1) = false := by
        simp only [beq_eq_false_iff_ne, ne_eq]
        intro hx
        exact hpk hx.symm
      simp only [List.lookup, hbeq]
      rw [← ih hnd.2]
      cases tl.reverse.find? (fun q => decide (q.1 = k)) <;> rfl

theorem dictSet_keys_subset (k : String) (v : PyVal) :
    ∀ d : List (String × PyVal), ∀ x ∈ (dictSet d k v).map Prod.fst,
      x = k ∨ x ∈ d.map Prod.fst := by
  intro d
  induction d with
  | nil =>
    intro x hx
    simp [dictSet] at hx
    exact Or.inl hx
  | cons p tl ih =>
    intro x hx
    simp only [dictSet] at hx
    by_cases hp : p.1 = k
    · rw [if_pos hp] at hx
      simp only [List.map_cons, List.mem_cons] at hx
      rcases hx with hx | hx
      · exact Or.inl hx
      · exact Or.inr (by simp [hx])
    · rw [if_neg hp] at hx
      simp only [List.map_cons, List.mem_cons] at hx
      rcases hx with hx | hx
      · exact Or.inr (by simp [hx])
      · rcases ih x hx with h | h
        · exact Or.inl h
        · exact Or.inr (by simp [h])

theorem dictSet_keysND (k : String) (v : PyVal) :
    ∀ d : List (String × PyVal), (d.map Prod.fst).Nodup →
      ((dictSet d k v).map Prod.fst).Nodup := by
  intro d
  induction d with
  | nil => intro h; simp [dictSet]
  | cons p tl ih =>
    intro hnd
    simp only [List.map_cons, List.nodup_cons] at hnd
    simp only [dictSet]
    by_cases hp : p.1 = k
    · rw [if_pos hp]
      simp only [List.map_cons, List.nodup_cons]
      rw [← hp]
      exact hnd
    · rw [if_neg hp]
      simp only [List.map_cons, List.nodup_cons]
      refine ⟨?_, ih hnd.2⟩
      intro hmem
      rcases dictSet_keys_subset k v tl p.1 hmem with h | h
      · exact hp h
      · exact hnd.1 h

theorem infoStep_keysND (row : InfoRow) (d : List (String × PyVal))
    (h : (d.map Prod.fst).Nodup) : ((infoStep d row).map Prod.fst).Nodup := by
  obtain ⟨th, td⟩ := row
  cases th with
  | none => simpa [infoStep] using h
  | some hd =>
    cases hm : field_mapping ⟨pyStrip hd.data⟩ with
    | none => simpa [infoStep, hm] using h
    | some fn =>
      cases td with
      | none => simpa [infoStep, hm] using h
      | some cell =>
        simp only [infoStep, hm]
        simp only [infoAssign]
        by_cases hlf : listField fn = true
        · rw [if_pos hlf]
          by_cases hit : (!cell.2.isEmpty) = true
          · rw [if_pos hit]
            exact dictSet_keysND fn _ d h
          · rw [if_neg hit]
            exact dictSet_keysND fn _ d h
        · rw [if_neg hlf]
          exact dictSet_keysND fn _ d h

theorem infobox_keysND (ib : Option (List InfoRow)) :
    ((parse_infobox ib).map Prod.fst).Nodup := by
  cases ib with
  | none => simp [parse_infobox]
  | some rows =>
    simp only [parse_infobox]
    have gen : ∀ (rs : List InfoRow) (d : List (String × PyVal)), (d.map Prod.fst).Nodup →
        ((rs.foldl infoStep d).map Prod.fst).Nodup := by
      intro rs
      induction rs with
      | nil => intro d h; exact h
      | cons r rest ih =>
        intro d h
        exact ih (infoStep d r) (infoStep_keysND r d h)
    exact gen rows [] (by simp)

/-- C10: when an entry has a parseable list line, a `/wiki/` link and a
fetched detail page, `process_companies` emits the list-derived record
`update`d with the infobox record plus the `wikipedia_url` key; for every
field other than `wikipedia_url`, the emitted value is the infobox value
whenever the infobox yields one (notably `industry` and `headquarters`,
which both sources produce), and the list-derived value otherwise. -/
theorem C10_merge_precedence (e : WikiEntry) (basic : List (String × PyVal)) (l : String)
    (ib : Option (List InfoRow))
    (hb : parse_list_entry e.text e.industry = some basic)
    (hl : e.link = some l) (hw : pyStartsWith l "/wiki/" = true)
    (hf : e.fetched = some ib) :
    process_companies [e] =
      [dictSet (pyUpdate basic (parse_infobox ib)) "wikipedia_url"
        (PyVal.vStr (wiki_base ++ l))] ∧
    ∀ k : String, k ≠ "wikipedia_url" →
      (dictSet (pyUpdate basic (parse_infobox ib)) "wikipedia_url"
        (PyVal.vStr (wiki_base ++ l))).lookup k =
      ((parse_infobox ib).lookup k).or (basic.lookup k) := by
  constructor
  · simp [process_companies, hb, hl, hw, hf]
  · intro k hk
    rw [dictSet_lookup, if_neg hk, pyUpdate_lookup,
      find_reverse_eq_lookup k (parse_infobox ib) (infobox_keysND ib)]

/-- C10 witness: a concrete entry whose infobox sets `industry`; the
emitted record takes the infobox value with the list value as fallback. -/
theorem C10_witness :
    process_companies [⟨"Acme – SF", "Tech", some "/wiki/Acme",
        some (some [⟨some "Industry", some ("Software", [])⟩])⟩] =
      [dictSet (pyUpdate
          [("name", PyVal.vStr "Acme"), ("industry", PyVal.vStr "Tech"),
           ("headquarters", PyVal.vStr "SF"), ("fortune_500_rank", PyVal.vNone),
           ("notes", PyVal.vNone)]
          (parse_infobox (some [⟨some "Industry", some ("Software", [])⟩])))
        "wikipedia_url" (PyVal.vStr (wiki_base ++ "/wiki/Acme"))] ∧
    (dictSet (pyUpdate
        [("name", PyVal.vStr "Acme"), ("industry", PyVal.vStr "Tech"),
         ("headquarters", PyVal.vStr "SF"), ("fortune_500_rank", PyVal.vNone),
         ("notes", PyVal.vNone)]
        (parse_infobox (some [⟨some "Industry", some ("Software", [])⟩])))
      "wikipedia_url" (PyVal.vStr (wiki_base ++ "/wiki/Acme"))).lookup "industry" =
      ((parse_infobox (some [⟨some "Industry", some ("Software", [])⟩])).lookup "industry").or
        ([("name", PyVal.vStr "Acme"), ("industry", PyVal.vStr "Tech"),
          ("headquarters", PyVal.vStr "SF"), ("fortune_500_rank", PyVal.vNone),
          ("notes", PyVal.vNone)].lookup "industry") := by
  have h := C10_merge_precedence
    ⟨"Acme – SF", "Tech", some "/wiki/Acme",
      some (some [⟨some "Industry", some ("Software", [])⟩])⟩
    [("name", PyVal.vStr "Acme"), ("industry", PyVal.vStr "Tech"),
     ("headquarters", PyVal.vStr "SF"), ("fortune_500_rank", PyVal.vNone),
     ("notes", PyVal.vNone)]
    "/wiki/Acme" (some [⟨some "Industry", some ("Software", [])⟩])
    (by decide) rfl (by decide) rfl
  exact ⟨h.1, h.2 "industry" (by decide)⟩

theorem takeWhile_ext {p : Char → Bool} :
    ∀ (l X : List Char), (∃ x ∈ l, p x = false) → (l ++ X).takeWhile p = l.takeWhile p := by
  intro l
  induction l with
  | nil =>
    intro X hx
    simp at hx
  | cons c rest ih =>
    intro X hx
    by_cases hc : p c = true
    · simp only [List.cons_append, List.takeWhile_cons, hc, if_true, reduceIte]
      obtain ⟨x, hmem, hpx⟩ := hx
      rcases List.mem_cons.mp hmem with h | h
      · subst h
        simp [hpx] at hc
      · rw [ih X ⟨x, h, hpx⟩]
    · have hc2 : p c = false := by
        cases hcc : p c with
        | true => exact absurd hcc hc
        | false => rfl
      simp [List.takeWhile_cons, hc2]

theorem dropWhile_ext {p : Char → Bool} :
    ∀ (l X : List Char), (∃ x ∈ l, p x = false) →
      (l ++ X).dropWhile p = l.dropWhile p ++ X := by
  intro l
  induction l with
  | nil =>
    intro X hx
    simp at hx
  | cons c rest ih =>
    intro X hx
    by_cases hc : p c = true
    · simp only [List.cons_append, List.dropWhile_cons, hc, if_true, reduceIte]
      obtain ⟨x, hmem, hpx⟩ := hx
      rcases List.mem_cons.mp hmem with h | h
      · subst h
        simp [hpx] at hc
      · exact ih X ⟨x, h, hpx⟩
    · have hc2 : p c = false := by
        cases hcc : p c with
        | true => exact absurd hcc hc
        | false => rfl
      simp [List.dropWhile_cons, hc2]

theorem dropWhile_all_append {p : Char → Bool} :
    ∀ (w X : List Char), w.all p = true → (w ++ X).dropWhile p = X.dropWhile p := by
  intro w
  induction w with
  | nil => intro X h; simp
  | cons c rest ih =>
    intro X h
    simp only [List.all_cons, Bool.and_eq_true] at h
    simp [List.dropWhile_cons, h.1, ih X h.2]

theorem dropWhile_all_nil {p : Char → Bool} :
    ∀ l : List Char, l.all p = true → l.dropWhile p = [] := by
  intro l h
  have := dropWhile_all_append l [] h
  simpa using this

theorem len_dropWhile_le {p : Char → Bool} :
    ∀ l : List Char, (l.dropWhile p).length ≤ l.length := by
  intro l
  induction l with
  | nil => simp
  | cons c rest ih =>
    by_cases hc : p c = true
    · simp only [List.dropWhile_cons, hc, if_true, reduceIte]
      simp only [List.length_cons]
      omega
    · have hc2 : p c = false := by
        cases hcc : p c with
        | true => exact absurd hcc hc
        | false => rfl
      simp [List.dropWhile_cons, hc2]

theorem pyRStrip_concat_nonws (x : List Char) (c : Char) (hc : isPySpace c = false) :
    pyRStrip (x ++ [c]) = x ++ [c] := by
  simp [pyRStrip, List.dropWhile_cons, hc]

theorem pyRStrip_concat_ws (x : List Char) (c : Char) (hc : isPySpace c = true) :
    pyRStrip (x ++ [c]) = pyRStrip x := by
  simp [pyRStrip, List.dropWhile_cons, hc]

theorem pyRStrip_all_ws (l : List Char) (h : l.all isPySpace = true) : pyRStrip l = [] := by
  have hr : l.reverse.all isPySpace = true := by
    rw [List.all_reverse]
    exact h
  simp [pyRStrip, dropWhile_all_nil l.reverse hr]

theorem pyRStrip_cons_of_exists (c : Char) (l : List Char)
    (hx : ∃ x ∈ l, isPySpace x = false) : pyRStrip (c :: l) = c :: pyRStrip l := by
  obtain ⟨x, hmem, hpx⟩ := hx
  simp only [pyRStrip, List.reverse_cons]
  rw [dropWhile_ext (l.reverse) [c] ⟨x, List.mem_reverse.mpr hmem, hpx⟩]
  simp

theorem pyRStrip_cons_nonws (c : Char) (l : List Char) (hc : isPySpace c = false) :
    pyRStrip (c :: l) = c :: pyRStrip l := by
  by_cases hex : ∃ x ∈ l, isPySpace x = false
  · exact pyRStrip_cons_of_exists c l hex
  · have hall : l.all isPySpace = true := by
      rw [List.all_eq_true]
      intro x hx
      by_cases hxx : isPySpace x = true
      · exact hxx
      · exact absurd ⟨x, hx, by cases hc2 : isPySpace x with
          | true => exact absurd hc2 hxx
          | false => rfl⟩ hex
    have hrl : l.reverse.all isPySpace = true := by
      rw [List.all_reverse]
      exact hall
    simp only [pyRStrip, List.reverse_cons]
    rw [dropWhile_all_append l.reverse [c] hrl]
    rw [dropWhile_all_nil l.reverse hrl]
    simp [List.dropWhile_cons, hc]

theorem lstrip_fix_head (c : Char) (l : List Char) (h : pyLStrip (c :: l) = c :: l) :
    isPySpace c = false := by
  cases hc : isPySpace c with
  | false => rfl
  | true =>
    exfalso
    have heq : (c :: l).dropWhile isPySpace = l.dropWhile isPySpace := by
      simp [List.dropWhile_cons, hc]
    rw [pyLStrip, heq] at h
    have h1 := congrArg List.length h
    have h2 := len_dropWhile_le (p := isPySpace) l
    simp at h1
    omega

theorem rstrip_fix_last (l : List Char) (hne : l ≠ []) (h : pyRStrip l = l) :
    ∃ x c, l = x ++ [c] ∧ isPySpace c = false := by
  have h2 : l.reverse.dropWhile isPySpace = l.reverse := by
    have h3 := congrArg List.reverse h
    simpa [pyRStrip] using h3
  cases hr : l.reverse with
  | nil =>
    exfalso
    apply hne
    have := congrArg List.reverse hr
    simpa using this
  | cons c rest =>
    refine ⟨rest.reverse, c, ?_, ?_⟩
    · have := congrArg List.reverse hr
      simpa using this
    · apply lstrip_fix_head c rest
      rw [← hr]
      simpa [pyLStrip] using h2

theorem len_takeWhile_le {p : Char → Bool} :
    ∀ l : List Char, (l.takeWhile p).length ≤ l.length := by
  intro l
  induction l with
  | nil => simp
  | cons c rest ih =>
    by_cases hc : p c = true
    · simp only [List.takeWhile_cons, hc, if_true, reduceIte, List.length_cons]
      omega
    · have hc2 : p c = false := by
        cases hcc : p c with
        | true => exact absurd hcc hc
        | false => rfl
      simp [List.takeWhile_cons, hc2]

theorem trySep_suffix_none (y X : List Char)
    (hns : ¬ hasSepL (y ++ [')'])) : trySep ((y ++ [')']) ++ X) = none := by
  have hwit : ∃ x ∈ y ++ [')'], isPySpace x = false := ⟨')', by simp, by decide⟩
  have htw : ((y ++ [')']) ++ X).takeWhile isPySpace = (y ++ [')']).takeWhile isPySpace :=
    takeWhile_ext (y ++ [')']) X hwit
  simp only [trySep, htw]
  by_cases hw1 : ((y ++ [')']).takeWhile isPySpace).isEmpty = true
  · rw [if_pos hw1]
  · rw [if_neg hw1]
    have hdrop : ((y ++ [')']) ++ X).drop ((y ++ [')']).takeWhile isPySpace).length
        = (y ++ [')']).dropWhile isPySpace ++ X := by
      rw [List.drop_append_of_le_length (len_takeWhile_le (y ++ [')']))]
      rw [drop_takeWhile]
    rw [hdrop]
    have hDne : (y ++ [')']).dropWhile isPySpace ≠ [] := by
      intro h0
      have := List.dropWhile_eq_nil_iff.mp h0 ')' (by simp)
      exact absurd this (by decide)
    cases hD : (y ++ [')']).dropWhile isPySpace with
    | nil => exact absurd hD hDne
    | cons d0 Dt =>
      simp only [List.cons_append, List.head?_cons, List.tail_cons]
      by_cases hdash : (some d0 = some '–' ∨ some d0 = some '-')
      · rw [if_pos hdash]
        have hse : y ++ [')'] = (y ++ [')']).takeWhile isPySpace ++ (d0 :: Dt) := by
          conv_lhs => rw [← List.takeWhile_append_dropWhile (p := isPySpace) (l := y ++ [')'])]
          rw [hD]
        cases Dt with
        | nil =>
          exfalso
          have hlast : (y ++ [')']).getLast? = some ')' := List.getLast?_concat y
          rw [hse] at hlast
          rw [List.getLast?_concat] at hlast
          simp only [Option.some.injEq] at hlast
          rcases hdash with hh | hh <;> simp only [Option.some.injEq] at hh <;>
            rw [hh] at hlast <;> exact absurd hlast (by decide)
        | cons t0 Dtt =>
          by_cases ht0 : isPySpace t0 = true
          · exfalso
            apply hns
            refine ⟨[], (y ++ [')']).takeWhile isPySpace, d0, [t0], Dtt, ?_, ?_, by simp,
              all_takeWhile _, by simp [ht0], ?_⟩
            · simpa using hse
            · intro h0
              rw [h0] at hw1
              exact hw1 rfl
            · rcases hdash with hh | hh <;> simp only [Option.some.injEq] at hh
              · exact Or.inl hh
              · exact Or.inr hh
          · have ht0f : isPySpace t0 = false := by
              cases hcc : isPySpace t0 with
              | true => exact absurd hcc ht0
              | false => rfl
            have : ((t0 :: Dtt ++ X).takeWhile isPySpace).isEmpty = true := by
              simp [List.takeWhile_cons, ht0f]
            rw [if_pos this]
      · rw [if_neg hdash]

theorem findSep_sep_head (loc : List Char) :
    findSep (' ' :: '–' :: ' ' :: loc) = some ([], loc.dropWhile isPySpace) := by
  have h1 : (' ' :: '–' :: ' ' :: loc).takeWhile isPySpace = [' '] := by
    simp [List.takeWhile_cons, show isPySpace ' ' = true from rfl,
      show isPySpace '–' = false from rfl]
  have h2 : (' ' :: loc).takeWhile isPySpace = ' ' :: loc.takeWhile isPySpace := by
    simp [List.takeWhile_cons, show isPySpace ' ' = true from rfl]
  have hts : trySep (' ' :: '–' :: ' ' :: loc) = some (loc.dropWhile isPySpace) := by
    simp only [trySep, h1]
    rw [if_neg (by simp)]
    simp only [List.length_cons, List.length_nil, List.drop_succ_cons, List.drop_zero,
      List.head?_cons, List.tail_cons]
    rw [if_pos (Or.inl trivial : True ∨ some '–' = some '-')]
    rw [h2]
    rw [if_neg (by simp)]
    simp only [List.length_cons, List.drop_succ_cons]
    rw [drop_takeWhile]
  simp only [findSep, hts]

theorem findSep_name_part : ∀ (n loc : List Char), (∃ y, n = y ++ [')']) → ¬ hasSepL n →
    findSep (n ++ ' ' :: '–' :: ' ' :: loc) = some (n, loc.dropWhile isPySpace) := by
  intro n
  induction n with
  | nil =>
    intro loc hy hns
    exfalso
    obtain ⟨y, hy⟩ := hy
    have := congrArg List.length hy
    simp at this
  | cons c n' ih =>
    intro loc hy hns
    obtain ⟨y, hy⟩ := hy
    have hts : trySep (c :: (n' ++ ' ' :: '–' :: ' ' :: loc)) = none := by
      have h := trySep_suffix_none y (' ' :: '–' :: ' ' :: loc) (by rw [← hy]; exact hns)
      rw [← hy] at h
      rw [← List.cons_append]
      exact h
    rw [List.cons_append]
    simp only [findSep, hts]
    cases n' with
    | nil =>
      simp only [List.nil_append, findSep_sep_head]
    | cons c2 n'' =>
      obtain ⟨ys, hys⟩ : ∃ ys, c2 :: n'' = ys ++ [')'] := by
        cases y with
        | nil =>
          exfalso
          have := congrArg List.length hy
          simp at this
        | cons y0 ys =>
          simp only [List.cons_append, List.cons.injEq] at hy
          exact ⟨ys, hy.2⟩
      have hns' : ¬ hasSepL (c2 :: n'') := by
        rintro ⟨a, w1, d, w2, b, he, hx1, hx2, hx3, hx4, hx5⟩
        exact hns ⟨c :: a, w1, d, w2, b, by simp [he], hx1, hx2, hx3, hx4, hx5⟩
      rw [ih loc ⟨ys, hys⟩ hns']

theorem firstIdxFrom_go (P : Nat → Bool) (p : Nat) (hP : P p = true) :
    ∀ (fuel i : Nat), i ≤ p → p < i + fuel → (∀ q, i ≤ q → q < p → P q = false) →
      firstIdxFrom P i fuel = some p := by
  intro fuel
  induction fuel with
  | zero =>
    intro i h1 h2 h3
    omega
  | succ f ih =>
    intro i h1 h2 h3
    by_cases hip : i = p
    · subst hip
      simp [firstIdxFrom, hP]
    · have hlt : i < p := by omega
      have hPi : P i = false := h3 i (Nat.le_refl i) hlt
      simp only [firstIdxFrom, hPi, Bool.false_eq_true, if_false, reduceIte]
      exact ih (i + 1) (by omega) (by omega) (fun q hq1 hq2 => h3 q (by omega) hq2)

theorem firstIdxFrom_spec (P : Nat → Bool) (n p : Nat) (hp : p < n)
    (hbefore : ∀ q, q < p → P q = false) (hP : P p = true) :
    firstIdxFrom P 0 n = some p :=
  firstIdxFrom_go P p hP n 0 (by omega) (by omega) (fun q _ hq2 => hbefore q hq2)

theorem rankSearch_app (rk : List Char) (hrk : rk ≠ []) (hrkd : rk.all Char.isDigit = true) :
    ∀ B : List Char, B.all (· ≠ '(') = true →
      rankSearch (B ++ '(' :: (rk ++ [')'])) = some (digitsVal rk) := by
  intro B
  induction B with
  | nil =>
    intro hB
    simp only [List.nil_append, rankSearch, if_pos rfl]
    have ht : (rk ++ [')']).takeWhile Char.isDigit = rk :=
      takeWhile_app rk ')' [] hrkd (by decide)
    rw [ht]
    have h2 : (rk ++ [')']).drop rk.length = [')'] := List.drop_left rk [')']
    rw [h2]
    have hne : (!rk.isEmpty) = true := by
      cases rk with
      | nil => exact absurd rfl hrk
      | cons a as => rfl
    simp [hne]
  | cons b B' ih =>
    intro hB
    simp only [List.all_cons, Bool.and_eq_true, decide_eq_true_eq] at hB
    simp only [List.cons_append, rankSearch, if_neg hB.1]
    exact ih hB.2

theorem rstrip_tail (c : Char) (l : List Char) (h : pyRStrip (c :: l) = c :: l) :
    pyRStrip l = l := by
  cases hrev : l.reverse with
  | nil =>
    have : l = [] := by
      have := congrArg List.reverse hrev
      simpa using this
    rw [this]
    rfl
  | cons z zs =>
    have h3 : (l.reverse ++ [c]).dropWhile isPySpace = l.reverse ++ [c] := by
      have h4 := congrArg List.reverse h
      simpa [pyRStrip] using h4
    have hzf : isPySpace z = false := by
      cases hz : isPySpace z with
      | false => rfl
      | true =>
        exfalso
        rw [hrev] at h3
        simp only [List.cons_append, List.dropWhile_cons, hz, if_true, reduceIte] at h3
        have hle := len_dropWhile_le (p := isPySpace) (zs ++ [c])
        rw [h3] at hle
        simp at hle
    have h5 : l.reverse.dropWhile isPySpace = l.reverse := by
      rw [hrev]
      simp [List.dropWhile_cons, hzf]
    simp only [pyRStrip, h5, List.reverse_reverse]

theorem dropWhile_head_mem {p : Char → Bool} :
    ∀ (l : List Char) (z : Char) (t : List Char), l.dropWhile p = z :: t →
      z ∈ l ∧ p z = false := by
  intro l
  induction l with
  | nil =>
    intro z t h
    simp at h
  | cons a as ih =>
    intro z t h
    by_cases ha : p a = true
    · rw [List.dropWhile_cons, if_pos ha] at h
      obtain ⟨hm, hp⟩ := ih z t h
      exact ⟨List.mem_cons_of_mem a hm, hp⟩
    · have haf : p a = false := by
        cases hc : p a with
        | true => exact absurd hc ha
        | false => rfl
      rw [List.dropWhile_cons, if_neg ha] at h
      simp only [List.cons.injEq] at h
      refine ⟨?_, by rw [← h.1]; exact haf⟩
      rw [← h.1]
      exact List.mem_cons_self a as

theorem tryRank_match_head (rk : List Char) (hrk : rk ≠ []) (hrkd : rk.all Char.isDigit = true) :
    tryRank (' ' :: '(' :: (rk ++ [')'])) = some (rk.length + 3) := by
  have h1 : (' ' :: '(' :: (rk ++ [')'])).takeWhile isPySpace = [' '] := by
    simp [List.takeWhile_cons, show isPySpace ' ' = true from rfl,
      show isPySpace '(' = false from rfl]
  have ht : (rk ++ [')']).takeWhile Char.isDigit = rk := takeWhile_app rk ')' [] hrkd (by decide)
  have hne : (!rk.isEmpty) = true := by
    cases rk with
    | nil => exact absurd rfl hrk
    | cons a as => rfl
  simp only [tryRank, h1, List.length_cons, List.length_nil, List.drop_succ_cons,
    List.drop_zero, List.head?_cons, List.tail_cons, ht, List.drop_left]
  rw [if_pos trivial, if_pos (by simp [hne])]
  simp only [Option.some.injEq]
  omega

theorem subAll_tryRank_name (rk : List Char) (hrk : rk ≠ [])
    (hrkd : rk.all Char.isDigit = true) :
    ∀ B : List Char, B.all (· ≠ '(') = true → pyRStrip B = B →
      subAll tryRank (B ++ ' ' :: '(' :: (rk ++ [')'])) = B := by
  intro B
  induction B with
  | nil =>
    intro hB hR
    simp only [List.nil_append]
    simp only [subAll, tryRank_match_head rk hrk hrkd]
    have hd : (' ' :: '(' :: (rk ++ [')'])).drop (max (rk.length + 3) 1) = [] := by
      apply List.drop_eq_nil_of_le
      simp only [List.length_cons, List.length_append, List.length_nil]
      exact le_trans (by omega) (Nat.le_max_left _ _)
    rw [hd]
    simp [subAll]
  | cons c B' ih =>
    intro hB hR
    simp only [List.all_cons, Bool.and_eq_true, decide_eq_true_eq] at hB
    have htrf : tryRank ((c :: B') ++ ' ' :: '(' :: (rk ++ [')'])) = none := by
      by_cases hws : isPySpace c = true
      · have hB'ne : B' ≠ [] := by
          intro h0
          subst h0
          have := pyRStrip_all_ws [c] (by simp [hws])
          rw [this] at hR
          exact absurd hR (by simp)
        have hex : ∃ x ∈ B', isPySpace x = false := by
          by_contra hno
          push_neg at hno
          have hall : (c :: B').all isPySpace = true := by
            rw [List.all_eq_true]
            intro x hx
            rcases List.mem_cons.mp hx with h | h
            · rw [h]; exact hws
            · have := hno x h
              cases hc : isPySpace x with
              | true => rfl
              | false => exact absurd hc this
          have := pyRStrip_all_ws (c :: B') hall
          rw [this] at hR
          exact absurd hR (by simp)
        obtain ⟨x0, hx0m, hx0⟩ := hex
        have hwit : ∃ x ∈ c :: B', isPySpace x = false := ⟨x0, List.mem_cons_of_mem c hx0m, hx0⟩
        have hwt : ((c :: B') ++ ' ' :: '(' :: (rk ++ [')'])).takeWhile isPySpace =
            (c :: B').takeWhile isPySpace := takeWhile_ext (c :: B') _ hwit
        have hDne : (c :: B').dropWhile isPySpace ≠ [] := by
          intro h0
          have := List.dropWhile_eq_nil_iff.mp h0 x0 (List.mem_cons_of_mem c hx0m)
          rw [this] at hx0
          exact absurd hx0 (by simp)
        cases hD : (c :: B').dropWhile isPySpace with
        | nil => exact absurd hD hDne
        | cons z t =>
          have hzB : z ∈ c :: B' ∧ isPySpace z = false := dropWhile_head_mem (c :: B') z t hD
          have hzne : z ≠ '(' := by
            rcases List.mem_cons.mp hzB.1 with h | h
            · rw [h]; exact hB.1
            · have h2 := hB.2
              rw [List.all_eq_true] at h2
              simpa using h2 z h
          simp only [tryRank, hwt]
          have hdr : ((c :: B') ++ ' ' :: '(' :: (rk ++ [')'])).drop
              ((c :: B').takeWhile isPySpace).length =
              (z :: t) ++ ' ' :: '(' :: (rk ++ [')']) := by
            rw [List.drop_append_of_le_length (len_takeWhile_le (c :: B'))]
            rw [drop_takeWhile, hD]
          rw [hdr]
          simp only [List.cons_append, List.head?_cons]
          rw [if_neg (by simp [hzne])]
      · have hwsf : isPySpace c = false := by
          cases hc : isPySpace c with
          | true => exact absurd hc hws
          | false => rfl
        simp only [List.cons_append, tryRank, List.takeWhile_cons, hwsf, Bool.false_eq_true,
          if_false, reduceIte, List.length_nil, List.drop_zero, List.head?_cons]
        rw [if_neg (by simp [hB.1])]
    rw [List.cons_append, subAll]
    rw [← List.cons_append, htrf]
    rw [List.cons_append]
    have hBall : B'.all (· ≠ '(') = true := by
      rw [List.all_eq_true]
      intro x hx
      simp only [decide_eq_true_eq]
      have h2 := hB.2
      rw [List.all_eq_true] at h2
      simpa using h2 x hx
    rw [ih hBall (rstrip_tail c B' hR)]

theorem lstrip_head_nonws (c : Char) (l : List Char) (hc : isPySpace c = false) :
    pyLStrip (c :: l) = c :: l := by
  simp [pyLStrip, List.dropWhile_cons, hc]

theorem lstrip_app_fix (A X : List Char) (hA : A ≠ []) (h : pyLStrip A = A) :
    (A ++ X).dropWhile isPySpace = A ++ X := by
  cases A with
  | nil => exact absurd rfl hA
  | cons a At =>
    have ha := lstrip_fix_head a At h
    rw [List.cons_append, List.dropWhile_cons, ha]
    simp

theorem pyStrip_fix (l : List Char) (h1 : pyLStrip l = l) (h2 : pyRStrip l = l) :
    pyStrip l = l := by
  simp only [pyStrip, h1, h2]

theorem reMatch_loc (A nts : List Char) (hA : A ≠ [])
    (hAp : A.all (· ≠ '(') = true) (hAn : A.all (· ≠ '\n') = true)
    (hAr : pyRStrip A = A) (hnts : nts.all (· ≠ '\n') = true) :
    reMatchTrailingParen (A ++ ' ' :: '(' :: (nts ++ [')'])) = some (A, some nts) := by
  set s := A ++ ' ' :: '(' :: (nts ++ [')']) with hs
  have hsplit : s = (A ++ ' ' :: '(' :: nts) ++ [')'] := by
    rw [hs]
    simp
  have hlast : s.getLast? = some ')' := by
    rw [hsplit]
    exact List.getLast?_concat _
  have hslen : s.length = A.length + nts.length + 3 := by
    rw [hs]
    simp only [List.length_append, List.length_cons, List.length_nil]
    omega
  have hsp : s[A.length]? = some ' ' := by
    rw [hs, List.getElem?_append_right (Nat.le_refl A.length)]
    simp
  have hpopen : s[A.length + 1]? = some '(' := by
    rw [hs, List.getElem?_append_right (by omega : A.length ≤ A.length + 1)]
    have h1 : A.length + 1 - A.length = 1 := by omega
    rw [h1]
    simp
  have htake1 : s.take (A.length + 1) = A ++ [' '] := by
    rw [hs, List.take_append_eq_append_take]
    rw [List.take_of_length_le (by omega : A.length ≤ A.length + 1)]
    have h1 : A.length + 1 - A.length = 1 := by omega
    rw [h1]
    simp
  have hrs1 : pyRStrip (s.take (A.length + 1)) = A := by
    rw [htake1, pyRStrip_concat_ws A ' ' (by decide), hAr]
  have hcore1 : s.take (s.length - 1) = A ++ ' ' :: '(' :: nts := by
    have hlen2 : s.length - 1 = (A ++ ' ' :: '(' :: nts).length := by
      rw [hslen]
      simp only [List.length_append, List.length_cons]
      omega
    rw [hlen2, hsplit, List.take_left]
  have hinner : (s.take (s.length - 1)).drop (A.length + 1 + 1) = nts := by
    rw [hcore1, List.drop_append_eq_append_drop]
    rw [List.drop_eq_nil_of_le (by omega : A.length ≤ A.length + 1 + 1)]
    have h2 : A.length + 1 + 1 - A.length = 2 := by omega
    rw [h2]
    simp
  have hbefore : ∀ q, q < A.length + 1 → tpCond s s q = false := by
    intro q hq
    have hnotp : ¬ s[q]? = some '(' := by
      by_cases hqA : q < A.length
      · rw [hs, List.getElem?_append_left hqA, List.getElem?_eq_getElem hqA]
        intro hcon
        simp only [Option.some.injEq] at hcon
        have hmem : A[q] ∈ A := List.getElem_mem hqA
        have h3 := List.all_eq_true.mp hAp _ hmem
        rw [hcon] at h3
        simp at h3
      · have hqe : q = A.length := by omega
        rw [hqe, hsp]
        simp
    simp only [tpCond]
    rw [decide_eq_false hnotp]
    simp
  have hPp : tpCond s s (A.length + 1) = true := by
    simp only [tpCond, hpopen, hrs1, hinner, hlast, Bool.and_eq_true, decide_eq_true_eq]
    exact ⟨⟨⟨⟨trivial, hAn⟩, by rw [hslen]; omega⟩, trivial⟩, hnts⟩
  have hfind : firstIdxFrom (tpCond s s) 0 s.length = some (A.length + 1) :=
    firstIdxFrom_spec (tpCond s s) s.length (A.length + 1) (by rw [hslen]; omega) hbefore hPp
  have hni : ¬ s.getLast? = some '\n' := by
    rw [hlast]
    simp
  simp only [reMatchTrailingParen]
  rw [if_neg hni, hfind]
  show some (pyRStrip (s.take (A.length + 1)),
      some ((s.take (s.length - 1)).drop (A.length + 1 + 1))) = some (A, some nts)
  rw [hrs1, hinner]

theorem parse_list_entry_general (base rk A nts : List Char) (ind : String)
    (hrk : rk ≠ []) (hrkd : rk.all Char.isDigit = true)
    (hb : base ≠ []) (hbL : pyLStrip base = base) (hbR : pyRStrip base = base)
    (hbP : base.all (· ≠ '(') = true)
    (hnsep : ¬ hasSepL (base ++ ' ' :: '(' :: (rk ++ [')'])))
    (hA : A ≠ []) (hAL : pyLStrip A = A) (hAR : pyRStrip A = A)
    (hAP : A.all (· ≠ '(') = true) (hAN : A.all (· ≠ '\n') = true)
    (hnts : nts.all (· ≠ '\n') = true) :
    parse_list_entry ⟨(base ++ ' ' :: '(' :: (rk ++ [')'])) ++
        ' ' :: '–' :: ' ' :: (A ++ ' ' :: '(' :: (nts ++ [')']))⟩ ind =
      some [("name", PyVal.vStr ⟨base⟩), ("industry", PyVal.vStr ind),
        ("headquarters", PyVal.vStr ⟨A⟩),
        ("fortune_500_rank", PyVal.vNat (digitsVal rk)),
        ("notes", PyVal.vStr ⟨nts⟩)] := by
  have hdata : ((⟨(base ++ ' ' :: '(' :: (rk ++ [')'])) ++
      ' ' :: '–' :: ' ' :: (A ++ ' ' :: '(' :: (nts ++ [')']))⟩ : String)).data =
      (base ++ ' ' :: '(' :: (rk ++ [')'])) ++
      ' ' :: '–' :: ' ' :: (A ++ ' ' :: '(' :: (nts ++ [')'])) := rfl
  have h1 : findSep ((base ++ ' ' :: '(' :: (rk ++ [')'])) ++
      ' ' :: '–' :: ' ' :: (A ++ ' ' :: '(' :: (nts ++ [')']))) =
      some (base ++ ' ' :: '(' :: (rk ++ [')']), A ++ ' ' :: '(' :: (nts ++ [')'])) := by
    rw [findSep_name_part _ _ ⟨base ++ ' ' :: '(' :: rk, by simp⟩ hnsep]
    rw [(lstrip_app_fix A (' ' :: '(' :: (nts ++ [')'])) hA hAL :
      (A ++ ' ' :: '(' :: (nts ++ [')'])).dropWhile isPySpace =
        A ++ ' ' :: '(' :: (nts ++ [')']))]
  have hnmS : pyStrip (base ++ ' ' :: '(' :: (rk ++ [')'])) =
      base ++ ' ' :: '(' :: (rk ++ [')']) := by
    have hL : pyLStrip (base ++ ' ' :: '(' :: (rk ++ [')'])) =
        base ++ ' ' :: '(' :: (rk ++ [')']) :=
      lstrip_app_fix base (' ' :: '(' :: (rk ++ [')'])) hb hbL
    have hR : pyRStrip (base ++ ' ' :: '(' :: (rk ++ [')'])) =
        base ++ ' ' :: '(' :: (rk ++ [')']) := by
      have h := pyRStrip_concat_nonws (base ++ ' ' :: '(' :: rk) ')' (by decide)
      rw [show (base ++ ' ' :: '(' :: rk) ++ [')'] =
        base ++ ' ' :: '(' :: (rk ++ [')']) from by simp] at h
      exact h
    exact pyStrip_fix _ hL hR
  have hlfS : pyStrip (A ++ ' ' :: '(' :: (nts ++ [')'])) =
      A ++ ' ' :: '(' :: (nts ++ [')']) := by
    have hL : pyLStrip (A ++ ' ' :: '(' :: (nts ++ [')'])) =
        A ++ ' ' :: '(' :: (nts ++ [')']) :=
      lstrip_app_fix A (' ' :: '(' :: (nts ++ [')'])) hA hAL
    have hR : pyRStrip (A ++ ' ' :: '(' :: (nts ++ [')'])) =
        A ++ ' ' :: '(' :: (nts ++ [')']) := by
      have h := pyRStrip_concat_nonws (A ++ ' ' :: '(' :: nts) ')' (by decide)
      rw [show (A ++ ' ' :: '(' :: nts) ++ [')'] =
        A ++ ' ' :: '(' :: (nts ++ [')']) from by simp] at h
      exact h
    exact pyStrip_fix _ hL hR
  have hany : (A ++ ' ' :: '(' :: (nts ++ [')'])).any (· = '(') = true := by
    simp
  have hAS : pyStrip A = A := pyStrip_fix A hAL hAR
  have hrm := reMatch_loc A nts hA hAP hAN hAR hnts
  have hrs : rankSearch (base ++ ' ' :: '(' :: (rk ++ [')'])) = some (digitsVal rk) := by
    have hBall : (base ++ [' ']).all (· ≠ '(') = true := by
      rw [List.all_append, hbP]
      rfl
    have h := rankSearch_app rk hrk hrkd (base ++ [' ']) hBall
    rw [show (base ++ [' ']) ++ '(' :: (rk ++ [')']) =
      base ++ ' ' :: '(' :: (rk ++ [')']) from by simp] at h
    exact h
  have hsub : subAll tryRank (base ++ ' ' :: '(' :: (rk ++ [')'])) = base :=
    subAll_tryRank_name rk hrk hrkd base hbP hbR
  simp only [parse_list_entry, hdata, h1, hnmS, hlfS, hany, eq_self_iff_true, if_true,
    hrm, hAS, hrs, hsub]

/-- C8: for a well-formed list-entry line `"<name> – <location> (<notes>)"`,
`parse_list_entry` splits on the first dash token, takes a parenthesized
integer in the name part as the Fortune-500 rank and strips it from the
name, and takes the trailing parenthetical of the location as the notes;
in particular `"Acme Corp (42) – San Francisco, California (formerly Acme
Inc.)"` yields name `"Acme Corp"`, rank `42`, headquarters `"San
Francisco, California"` and notes `"formerly Acme Inc."`. -/
theorem C8_list_entry :
    (∀ ind : String,
      parse_list_entry "Acme Corp (42) – San Francisco, California (formerly Acme Inc.)" ind =
        some [("name", PyVal.vStr "Acme Corp"), ("industry", PyVal.vStr ind),
          ("headquarters", PyVal.vStr "San Francisco, California"),
          ("fortune_500_rank", PyVal.vNat 42),
          ("notes", PyVal.vStr "formerly Acme Inc.")]) ∧
    (∀ (base rk A nts : List Char) (ind : String),
      rk ≠ [] → rk.all Char.isDigit = true →
      base ≠ [] → pyLStrip base = base → pyRStrip base = base →
      base.all (· ≠ '(') = true →
      ¬ hasSepL (base ++ ' ' :: '(' :: (rk ++ [')'])) →
      A ≠ [] → pyLStrip A = A → pyRStrip A = A →
      A.all (· ≠ '(') = true → A.all (· ≠ '\n') = true →
      nts.all (· ≠ '\n') = true →
      parse_list_entry ⟨(base ++ ' ' :: '(' :: (rk ++ [')'])) ++
          ' ' :: '–' :: ' ' :: (A ++ ' ' :: '(' :: (nts ++ [')']))⟩ ind =
        some [("name", PyVal.vStr ⟨base⟩), ("industry", PyVal.vStr ind),
          ("headquarters", PyVal.vStr ⟨A⟩),
          ("fortune_500_rank", PyVal.vNat (digitsVal rk)),
          ("notes", PyVal.vStr ⟨nts⟩)]) := by
  constructor
  · intro ind
    have hns : ¬ hasSepL ("Acme Corp".data ++ ' ' :: '(' :: ("42".data ++ [')'])) := by
      intro hcon
      have h2 := (findSep_isSome_iff _).mpr hcon
      rw [show findSep ("Acme Corp".data ++ ' ' :: '(' :: ("42".data ++ [')'])) = none from
        by decide] at h2
      simp at h2
    have h := parse_list_entry_general "Acme Corp".data "42".data
      "San Francisco, California".data "formerly Acme Inc.".data ind
      (by decide) (by decide) (by decide) (by decide) (by decide) (by decide) hns
      (by decide) (by decide) (by decide) (by decide) (by decide) (by decide)
    rw [show ("Acme Corp (42) – San Francisco, California (formerly Acme Inc.)" : String) =
      ⟨("Acme Corp".data ++ ' ' :: '(' :: ("42".data ++ [')'])) ++
        ' ' :: '–' :: ' ' :: ("San Francisco, California".data ++ ' ' :: '(' ::
        ("formerly Acme Inc.".data ++ [')']))⟩ from by decide]
    exact h
  · intro base rk A nts ind hrk hrkd hb hbL hbR hbP hnsep hA hAL hAR hAP hAN hnts
    exact parse_list_entry_general base rk A nts ind hrk hrkd hb hbL hbR hbP hnsep
      hA hAL hAR hAP hAN hnts

theorem C8_witness :
    parse_list_entry ⟨("Acme Corp".data ++ ' ' :: '(' :: ("42".data ++ [')'])) ++
        ' ' :: '–' :: ' ' :: ("San Francisco, California".data ++ ' ' :: '(' ::
        ("formerly Acme Inc.".data ++ [')']))⟩ "Information technology" =
      some [("name", PyVal.vStr "Acme Corp"),
        ("industry", PyVal.vStr "Information technology"),
        ("headquarters", PyVal.vStr "San Francisco, California"),
        ("fortune_500_rank", PyVal.vNat 42),
        ("notes", PyVal.vStr "formerly Acme Inc.")] := by
  have hns : ¬ hasSepL ("Acme Corp".data ++ ' ' :: '(' :: ("42".data ++ [')'])) := by
    intro hcon
    have h2 := (findSep_isSome_iff _).mpr hcon
    rw [show findSep ("Acme Corp".data ++ ' ' :: '(' :: ("42".data ++ [')'])) = none from
      by decide] at h2
    simp at h2
  exact C8_list_entry.2 "Acme Corp".data "42".data "San Francisco, California".data
    "formerly Acme Inc.".data "Information technology"
    (by decide) (by decide) (by decide) (by decide) (by decide) (by decide) hns
    (by decide) (by decide) (by decide) (by decide) (by decide) (by decide)
